import Mathlib

/-!
Verification of the curriculum graph analytics engine of `CurricularAnalytics.py`.

This file is a shallow embedding of the analytics core found in
`curricularanalytics/graph_algs.py`, `curricularanalytics/types/course.py`,
`curricularanalytics/types/curriculum.py`, `curricularanalytics/types/degree_plan.py`
and `curricularanalytics/degree_plan_creation.py`, together with theorems about
that embedding.

Modeling conventions:
* Python strings are modeled as `List Char` (Python string comparison is
  lexicographic over code points, as is the `strLe` order below).
* Course credit hours are floats in the source; the analytics only ever add them
  and compare them with `<=`, and every value appearing in the specification is
  integral, so they are modeled as `Int`.
* Python object identity (the default `==` of course and curriculum objects) is
  modeled by a `tag` field: distinct objects carry distinct tags.
* Graphs over course vertices `0 .. n-1` are adjacency predicates
  `Fin n → Fin n → Bool`.
* Recursion and loops whose termination depends on the input are given an
  explicit `fuel` argument.  `Res.spin` marks the (non-)result of a computation
  whose recursion exceeds every depth bound, `Res.raised` marks a raised Python
  exception, and `Res.ok` a normal return.
-/

namespace CurrAn

/-- Requisite kinds (`types/data_types.py`). -/
inductive Req where
  | pre
  | co
  | strictCo
  | custom
  | belongTo

deriving instance DecidableEq for Req

/-- System type of a curriculum (`types/data_types.py`). -/
inductive Sys where
  | semester
  | quarter

deriving instance DecidableEq for Sys

/-- Model of `AbstractCourse` / `Course` (`types/course.py`).  `tag` models object
identity, `simple` is `true` for the `Course` subclass and `false` for
`CourseCollection`, `pfx` is the course prefix field (renamed), and `requisites`
is the requisite dictionary in insertion order, mapping requisite course ids to
requisite kinds. -/
structure Course where
  tag : Nat
  id : Nat
  name : List Char
  pfx : List Char
  num : List Char
  creditHours : Int
  requisites : List (Nat × Req)
  simple : Bool

deriving instance DecidableEq for Course

/-- Model of `Curriculum` (`types/curriculum.py`) after construction: `courses` is
the stored course list (already in its final, id-sorted order). -/
structure Curriculum where
  tag : Nat
  name : List Char
  courses : List Course
  systemType : Sys

deriving instance DecidableEq for Curriculum

/-- Outcome of a fueled computation: a value, a raised exception, or a recursion
that exceeds every depth bound. -/
inductive Res (α : Type) where
  | ok : α → Res α
  | raised : Res α
  | spin : Res α

deriving instance DecidableEq for Res

namespace Res

/-- Map a function over a successful result. -/
def map {α β : Type} (f : α → β) : Res α → Res β
  | ok a => ok (f a)
  | raised => raised
  | spin => spin

end Res

/-- Sequence a fueled computation over a list, propagating the first failure,
mirroring a Python list comprehension whose body may raise or not terminate. -/
def mapRes {α β : Type} (f : α → Res β) : List α → Res (List β)
  | [] => Res.ok []
  | a :: as =>
    match f a with
    | Res.ok b =>
      match mapRes f as with
      | Res.ok bs => Res.ok (b :: bs)
      | Res.raised => Res.raised
      | Res.spin => Res.spin
    | Res.raised => Res.raised
    | Res.spin => Res.spin

/-- Lexicographic comparison of Python strings (code-point order). -/
def strLe : List Char → List Char → Bool
  | [], _ => true
  | _ :: _, [] => false
  | a :: as, b :: bs => if a < b then true else if a = b then strLe as bs else false

section GraphBasics

variable {n : Nat}

/-- Successor list of vertex `v`, i.e. `g.neighbors(v)` of a `networkx.DiGraph`,
enumerated in vertex order. -/
def outNeighbors (adj : Fin n → Fin n → Bool) (v : Fin n) : List (Fin n) :=
  (List.finRange n).filter (fun w => adj v w)

/-- In-neighbor list of vertex `v` (the sources of `g.in_edges(v)`). -/
def inNeighbors (adj : Fin n → Fin n → Bool) (v : Fin n) : List (Fin n) :=
  (List.finRange n).filter (fun u => adj u v)

/-- Out-degree of a vertex. -/
def outDegree (adj : Fin n → Fin n → Bool) (v : Fin n) : Nat :=
  (outNeighbors adj v).length

/-- In-degree of a vertex. -/
def inDegree (adj : Fin n → Fin n → Bool) (v : Fin n) : Nat :=
  (inNeighbors adj v).length

/-- Bounded reachability by expansion: `reachExpand adj fuel u v` is `true` iff a
directed walk of at most `fuel` edges leads from `u` to `v`. -/
def reachExpand (adj : Fin n → Fin n → Bool) : Nat → Fin n → Fin n → Bool
  | 0, u, v => u == v
  | fuel + 1, u, v => u == v || (outNeighbors adj u).any (fun w => reachExpand adj fuel w v)

/-- `nx.has_path(g, u, v)`: `u` reaches `v` (trivially true when `u = v`).  A walk
between distinct vertices can always be shortened below `n` edges, so `fuel = n`
decides reachability (`reachExpand_complete` below). -/
def hasPathB (adj : Fin n → Fin n → Bool) (u v : Fin n) : Bool :=
  reachExpand adj n u v

/-- The edge relation of the graph, as a proposition. -/
@[reducible] def Step (adj : Fin n → Fin n → Bool) (u v : Fin n) : Prop :=
  adj u v = true

/-- `u` reaches `v` by a directed walk (possibly empty). -/
def Reaches (adj : Fin n → Fin n → Bool) (u v : Fin n) : Prop :=
  Relation.ReflTransGen (Step adj) u v

/-- The graph contains a directed cycle. -/
def HasCycle (adj : Fin n → Fin n → Bool) : Prop :=
  ∃ v, Relation.TransGen (Step adj) v v

/-- The graph contains no directed cycle. -/
def Acyclic (adj : Fin n → Fin n → Bool) : Prop :=
  ∀ v, ¬Relation.TransGen (Step adj) v v

/-- Boolean cycle test: some vertex has a successor that reaches it back.  This is
the observable behavior of `nx.find_cycle` (raising `NetworkXNoCycle` exactly when
no directed cycle exists). -/
def hasCycleB (adj : Fin n → Fin n → Bool) : Bool :=
  (List.finRange n).any (fun v => (outNeighbors adj v).any (fun w => hasPathB adj w v))

end GraphBasics

section GraphAlgs

variable {n : Nat}

/-- Body of `reachable_from(g, s, vlist)` (`graph_algs.py`): for every successor
`v` of `s`, append `v` to `vlist` when unseen, then recurse into `v`
unconditionally, sharing the accumulator.  `fuel` bounds the recursion depth
(the Python call stack); on a cyclic graph the depth grows without bound. -/
def reachableFromAux (adj : Fin n → Fin n → Bool) :
    Nat → Fin n → List (Fin n) → Res (List (Fin n))
  | 0, _, _ => Res.spin
  | fuel + 1, s, vlist =>
    (outNeighbors adj s).foldl
      (fun acc v =>
        match acc with
        | Res.ok vl =>
          reachableFromAux adj fuel v (if v ∈ vl then vl else vl ++ [v])
        | r => r)
      (Res.ok vlist)

/-- `reachable_from(g, s)`: the list of vertices reachable from `s` (excluding
`s` itself unless it lies on a cycle). -/
def reachable_from (adj : Fin n → Fin n → Bool) (fuel : Nat) (s : Fin n) :
    Res (List (Fin n)) :=
  reachableFromAux adj fuel s []

/-- One step of the backward breadth-first enumeration of `all_paths`
(`graph_algs.py` lines 264-285).  Each queue entry is a partial path whose last
vertex is a sink; for every in-neighbor `u` of the head, the extended path
`u :: x` is recorded as complete when `u` has in-degree 0 and is re-queued
otherwise.  `fuel` bounds the number of processed queue entries. -/
def allPathsGo (adj : Fin n → Fin n → Bool) :
    Nat → List (List (Fin n)) → List (List (Fin n)) → Res (List (List (Fin n)))
  | _, [], paths => Res.ok paths
  | 0, _ :: _, _ => Res.spin
  | fuel + 1, x :: rest, paths =>
    match x with
    | [] => Res.ok paths
    | h :: _ =>
      let ins := inNeighbors adj h
      let completed := (ins.filter (fun u => inDegree adj u == 0)).map (fun u => u :: x)
      let pending := (ins.filter (fun u => !(inDegree adj u == 0))).map (fun u => u :: x)
      allPathsGo adj fuel (rest ++ pending) (paths ++ completed)

/-- The sink vertices considered by `all_paths`: out-degree 0 and in-degree
greater than 0, in vertex order. -/
def sinkList (adj : Fin n → Fin n → Bool) : List (Fin n) :=
  (List.finRange n).filter (fun v => outDegree adj v == 0 && decide (0 < inDegree adj v))

/-- Run the backward enumeration for each sink in turn, accumulating paths
(the Python version drains one shared queue fully between sinks). -/
def allPathsSinks (adj : Fin n → Fin n → Bool) (fuel : Nat) :
    List (Fin n) → Res (List (List (Fin n)))
  | [] => Res.ok []
  | v :: vs =>
    match allPathsGo adj fuel [[v]] [] with
    | Res.ok ps =>
      match allPathsSinks adj fuel vs with
      | Res.ok rest => Res.ok (ps ++ rest)
      | r => r
    | Res.raised => Res.raised
    | Res.spin => Res.spin

/-- `all_paths(g)`: raises when the graph has a cycle, otherwise enumerates every
maximal source-to-sink path with at least two vertices. -/
def all_paths (adj : Fin n → Fin n → Bool) (fuel : Nat) : Res (List (List (Fin n))) :=
  if hasCycleB adj then Res.raised
  else allPathsSinks adj fuel (sinkList adj)

/-- The running maximum of path lengths, as computed by `longest_paths`
(starting from 0 and keeping strictly larger lengths). -/
def maxPathLen (paths : List (List (Fin n))) : Nat :=
  paths.foldl (fun m p => if p.length > m then p.length else m) 0

/-- `longest_paths(g)`: raises on a cyclic graph, otherwise returns all paths of
`all_paths(g)` attaining the maximum length. -/
def longest_paths (adj : Fin n → Fin n → Bool) (fuel : Nat) :
    Res (List (List (Fin n))) :=
  if hasCycleB adj then Res.raised
  else
    match all_paths adj fuel with
    | Res.ok paths => Res.ok (paths.filter (fun p => p.length == maxPathLen paths))
    | r => r

/-- `edge_crossings_vertex(g, s, d)`: the number of vertices of `d` that `s` has
an edge to (`g.has_edge(s, v)` is a directed test on a `DiGraph`). -/
def edge_crossings_vertex (adj : Fin n → Fin n → Bool) (s : Fin n)
    (d : List (Fin n)) : Nat :=
  (d.filter (fun v => adj s v)).length

/-- `edge_crossings(g, s)`: sum over `v ∈ s` of the crossings from `v` into the
complement list `d`. -/
def edge_crossings (adj : Fin n → Fin n → Bool) (s : List (Fin n)) : Nat :=
  ((s.map fun v =>
      edge_crossings_vertex adj v ((List.finRange n).filter (fun x => decide (x ∉ s)))).sum)

/-- All ordered vertex pairs. -/
def allPairs (n : Nat) : List (Fin n × Fin n) :=
  (List.finRange n).flatMap (fun u => (List.finRange n).map (fun v => (u, v)))

/-- Number of edges leaving the vertex set `s`: edges directed from a vertex in
`s` to a vertex outside `s`. -/
def directedCutCount (adj : Fin n → Fin n → Bool) (s : List (Fin n)) : Nat :=
  ((allPairs n).filter
    (fun p => adj p.1 p.2 && decide (p.1 ∈ s) && decide (p.2 ∉ s))).length

/-- Number of edges with exactly one endpoint in `s`, regardless of direction —
the quantity named by the specification's sentence about `edge_crossings`. -/
def undirectedCutCount (adj : Fin n → Fin n → Bool) (s : List (Fin n)) : Nat :=
  ((allPairs n).filter
    (fun p => adj p.1 p.2 && (decide (p.1 ∈ s) != decide (p.2 ∈ s)))).length

end GraphAlgs

section SimpleCycles

variable {n : Nat}

/-- Boolean test that consecutive vertices of `l` are joined by edges. -/
def chainB (adj : Fin n → Fin n → Bool) : List (Fin n) → Bool
  | [] => true
  | [_] => true
  | a :: b :: rest => adj a b && chainB adj (b :: rest)

/-- Boolean test that `l` is a directed cycle: consecutive edges plus an edge
from the last vertex back to the first (a single vertex with a self-loop for
`l = [v]`). -/
def isCycleB (adj : Fin n → Fin n → Bool) : List (Fin n) → Bool
  | [] => false
  | h :: t =>
    chainB adj (h :: t) &&
      (match (h :: t).getLast? with
       | some a => adj a h
       | none => false)

/-- Every duplicate-free list over `Fin n` (each simple cycle appears here in
every rotation). -/
def nodupLists (n : Nat) : List (List (Fin n)) :=
  (List.finRange n).sublists.flatMap List.permutations

/-- The simple cycles of the graph, by brute-force enumeration.  `nx.simple_cycles`
produces one rotation of each; this list contains every rotation, which is
observably equivalent for the emptiness tests and the diagnostics `is_valid`
derives from it. -/
def simple_cycles (adj : Fin n → Fin n → Bool) : List (List (Fin n)) :=
  (nodupLists n).filter (isCycleB adj)

/-- A simple directed cycle: a nonempty duplicate-free vertex list with
consecutive edges and an edge from its last vertex back to its first. -/
def IsSimpleCycle (adj : Fin n → Fin n → Bool) (l : List (Fin n)) : Prop :=
  ∃ h : l ≠ [], l.Nodup ∧ List.Chain' (Step adj) l ∧ Step adj (l.getLast h) (l.head h)

end SimpleCycles

section CurriculumGraph

/-- Number of courses, i.e. number of vertices of the curriculum graph. -/
def numC (c : Curriculum) : Nat := c.courses.length

/-- The course stored at a vertex. -/
def courseAt (c : Curriculum) (i : Fin (numC c)) : Course := c.courses.get i

/-- `Curriculum._course_vertex`: the vertex of the first course carrying the
given course id, if any (the source raises a `KeyError` when absent, which
cannot happen for a well-formed curriculum). -/
def course_vertex (c : Curriculum) (cid : Nat) : Option (Fin (numC c)) :=
  (List.finRange (numC c)).find? (fun i => (courseAt c i).id == cid)

/-- Adjacency of `Curriculum._create_graph`: an edge `u → v` for every requisite
entry of course `v` whose id resolves to vertex `u`. -/
def curricAdj (c : Curriculum) : Fin (numC c) → Fin (numC c) → Bool := fun u v =>
  (courseAt c v).requisites.any (fun p => course_vertex c p.1 == some u)

/-- Python dict lookup on the requisite association list. -/
def lookupReq : List (Nat × Req) → Nat → Option Req
  | [], _ => none
  | p :: rest, k => if p.1 = k then some p.2 else lookupReq rest k

/-- `Curriculum._blocking_factors`: the length of `reachable_from` for each
vertex. -/
def blocking_factors (c : Curriculum) (fuel : Nat) : Res (List Nat) :=
  mapRes (fun i => (reachable_from (curricAdj c) fuel i).map List.length)
    (List.finRange (numC c))

/-- `Curriculum.total_blocking_factor`. -/
def total_blocking_factor (c : Curriculum) (fuel : Nat) : Res Nat :=
  (blocking_factors c fuel).map List.sum

/-- `Curriculum._delay_factors`: start every course at 1, then for every path of
`all_paths` raise each vertex on it to at least the path's vertex count. -/
def delay_factors (c : Curriculum) (fuel : Nat) : Res (List Nat) :=
  match all_paths (curricAdj c) fuel with
  | Res.ok paths =>
    Res.ok (paths.foldl
      (fun d p => p.foldl (fun d v => d.set v.val (max (d.getD v.val 0) p.length)) d)
      (List.replicate (numC c) 1))
  | Res.raised => Res.raised
  | Res.spin => Res.spin

/-- `Curriculum.total_delay_factor`. -/
def total_delay_factor (c : Curriculum) (fuel : Nat) : Res Nat :=
  (delay_factors c fuel).map List.sum

/-- `Curriculum._centralities`: for each vertex, the sum of the vertex counts of
the paths of `all_paths` that contain it strictly in their interior and have
more than two vertices. -/
def centralities (c : Curriculum) (fuel : Nat) : Res (List Nat) :=
  match all_paths (curricAdj c) fuel with
  | Res.ok paths =>
    Res.ok ((List.finRange (numC c)).map (fun i =>
      ((paths.filter (fun p =>
          decide (i ∈ p) && decide (p.length > 2) && p.head? != some i &&
            p.getLast? != some i)).map List.length).sum))
  | Res.raised => Res.raised
  | Res.spin => Res.spin

/-- `Curriculum.total_centrality`. -/
def total_centrality (c : Curriculum) (fuel : Nat) : Res Nat :=
  (centralities c fuel).map List.sum

/-- Round to one decimal place over the exact rationals (the source rounds the
binary float `(df+bf)*2/3` with Python's `round(x, ndigits=1)`; no claim
exercises the quarter branch). -/
def roundTenth (q : ℚ) : ℚ := ((round (q * 10) : ℤ) : ℚ) / 10

/-- `Curriculum._complexities`: delay factor plus blocking factor per course;
under the quarter system the value is scaled by 2/3 and rounded to one decimal.
The delay factors are evaluated first, as in `zip(self._delay_factors,
self._blocking_factors)`. -/
def complexities (c : Curriculum) (fuel : Nat) : Res (List ℚ) :=
  match delay_factors c fuel with
  | Res.ok dfs =>
    match blocking_factors c fuel with
    | Res.ok bfs =>
      Res.ok ((dfs.zip bfs).map (fun p =>
        if c.systemType = Sys.quarter then roundTenth (((p.1 + p.2 : ℕ) : ℚ) * 2 / 3)
        else ((p.1 + p.2 : ℕ) : ℚ)))
    | Res.raised => Res.raised
    | Res.spin => Res.spin
  | Res.raised => Res.raised
  | Res.spin => Res.spin

/-- `Curriculum.total_complexity`. -/
def total_complexity (c : Curriculum) (fuel : Nat) : Res ℚ :=
  (complexities c fuel).map List.sum

/-- The co/strict-co guard of `extraneous_requisites`: candidate edge `(u, v)` is
kept when some direct successor `nb` of `u` has a path to `v` and the requisite
relation from `u` recorded in `nb` is `co` or `strict_co`.  (The source indexes
`courses[nb].requisites` by `courses[u].id`, which exists whenever course ids
are distinct; an absent key would raise, modeled here as not matching.) -/
def keepEdge (c : Curriculum) (u v : Fin (numC c)) : Bool :=
  (outNeighbors (curricAdj c) u).any (fun nb =>
    hasPathB (curricAdj c) nb v &&
      (match lookupReq (courseAt c nb).requisites (courseAt c u).id with
       | some Req.co => true
       | some Req.strictCo => true
       | _ => false))

/-- The breadth-first sweep of `extraneous_requisites` for a single vertex `u`:
process the queue, pushing every successor of the dequeued vertex, and record
`(u, v)` for every direct edge of `u` reached transitively that the co-requisite
guard does not protect, without duplicates. -/
def extrGo (c : Curriculum) (u : Fin (numC c)) :
    Nat → List (Fin (numC c)) → List (Fin (numC c) × Fin (numC c)) →
      Res (List (Fin (numC c) × Fin (numC c)))
  | _, [], acc => Res.ok acc
  | 0, _ :: _, _ => Res.spin
  | fuel + 1, x :: rest, acc =>
    let succ := outNeighbors (curricAdj c) x
    let acc' := succ.foldl
      (fun a v =>
        if curricAdj c u v then
          if keepEdge c u v then a
          else if (u, v) ∈ a then a else a ++ [(u, v)]
        else a)
      acc
    extrGo c u fuel (rest ++ succ) acc'

/-- Symmetrized adjacency, for weak connectivity. -/
def undirAdj {n : Nat} (adj : Fin n → Fin n → Bool) : Fin n → Fin n → Bool :=
  fun a b => adj a b || adj b a

/-- Vertex `u` lies in a weakly connected component with more than one vertex. -/
def inBigComponent (c : Curriculum) (u : Fin (numC c)) : Bool :=
  (List.finRange (numC c)).any (fun w =>
    w != u && hasPathB (undirAdj (curricAdj c)) u w)

/-- Accumulate the redundant requisites found from each start vertex in turn. -/
def extrSweep (c : Curriculum) (fuel : Nat) :
    List (Fin (numC c)) → List (Fin (numC c) × Fin (numC c)) →
      Res (List (Fin (numC c) × Fin (numC c)))
  | [], acc => Res.ok acc
  | u :: us, acc =>
    if inBigComponent c u then
      match extrGo c u fuel (outNeighbors (curricAdj c) u) acc with
      | Res.ok acc' => extrSweep c fuel us acc'
      | r => r
    else extrSweep c fuel us acc

/-- `Curriculum.extraneous_requisites`: raises on a cyclic graph; otherwise the
set of redundant requisite edges, gathered per weakly-connected component with
more than one vertex (the Python result is a set; this list carries the same
elements without duplicates). -/
def extraneous_requisites (c : Curriculum) (fuel : Nat) :
    Res (List (Fin (numC c) × Fin (numC c))) :=
  if hasCycleB (curricAdj c) then Res.raised
  else extrSweep c fuel (List.finRange (numC c)) []

/-- The working copy of the curriculum graph used by `Curriculum.is_valid`: the
original edges plus, for every `strict_co` requisite entry of course `a`
resolving to vertex `b`, a reverse edge `a → b`. -/
def strictCoAugAdj (c : Curriculum) : Fin (numC c) → Fin (numC c) → Bool :=
  fun a b =>
    curricAdj c a b ||
      (courseAt c a).requisites.any (fun p =>
        p.2 == Req.strictCo && course_vertex c p.1 == some b)

/-- The deduplicated cycle collection of `Curriculum.is_valid`: all simple cycles
of length different from 2 in the strict-co augmented graph, together with all
simple cycles of the original graph. -/
def is_valid_cycles (c : Curriculum) : List (List (Fin (numC c))) :=
  (simple_cycles (strictCoAugAdj c)).filter (fun l => l.length != 2) ++
    simple_cycles (curricAdj c)

/-- `Curriculum.is_valid`: true iff the cycle collection is empty. -/
def is_valid (c : Curriculum) : Bool :=
  (is_valid_cycles c).isEmpty

/-- The course-name lists written to the error buffer by `Curriculum.is_valid`
(one per cycle, nothing when the curriculum is valid). -/
def is_valid_errors (c : Curriculum) : List (List (List Char)) :=
  if (is_valid_cycles c).isEmpty then []
  else (is_valid_cycles c).map (fun l => l.map (fun v => (courseAt c v).name))

end CurriculumGraph

section DegreePlanCreation

/-- `course_num(c)` (`degree_plan_creation.py`): the sort key used for the
unplaced-course list — the course number for a `Course` with a nonempty number,
else the course name. -/
def course_num (c : Course) : List Char :=
  if c.simple && c.num != [] then c.num else c.name

/-- `select_vertex(curric, term_courses, UC)`: the first course of `UC` (in
order) such that no other unplaced course has a path to it (invariant 1) and it
does not have any course of the current term as a plain prerequisite
(invariant 2); `none` when no course qualifies. -/
def select_vertex (c : Curriculum) (termCourses UC : List (Fin (numC c))) :
    Option (Fin (numC c)) :=
  UC.find? (fun target =>
    UC.all (fun source =>
      source == target || !hasPathB (curricAdj c) source target) &&
    termCourses.all (fun tc =>
      lookupReq (courseAt c target).requisites (courseAt c tc).id != some Req.pre))

/-- The strict-corequisite propagation loop of `bin_filling`: walk the unplaced
list by position; a course holding `cid` as a `strict_co` requisite is removed
and appended to the current term (bypassing the credit check).  Removal while
iterating skips the element that shifts into the removed position, as in the
Python `for course in UC: ... UC.remove(course)`.  The position `uc.length - i`
shrinks at every step, so the structural fuel `uc.length - i + 1` always
completes the walk; every caller passes at least that much. -/
def binPropagate (c : Curriculum) (cid : Nat) :
    Nat → List (Fin (numC c)) → List (Fin (numC c)) → Int → Nat →
      List (Fin (numC c)) × List (Fin (numC c)) × Int
  | 0, uc, term, credits, _ => (uc, term, credits)
  | fuel + 1, uc, term, credits, i =>
    if h : i < uc.length then
      let course := uc.get ⟨i, h⟩
      if (courseAt c course).requisites.any
          (fun p => p.1 == cid && p.2 == Req.strictCo) then
        binPropagate c cid fuel (uc.eraseIdx i) (term ++ [course])
          (credits + (courseAt c course).creditHours) (i + 1)
      else binPropagate c cid fuel uc term credits (i + 1)
    else (uc, term, credits)

/-- The main loop of `bin_filling`: while unplaced courses remain, select a
course; on success remove it, place it in the current term (or start a fresh
term when the credit cap would be exceeded), then propagate strict
co-requisites; on failure close the current term (when nonempty) and retry.
`fuel` bounds the number of loop iterations; `none` models a loop that runs
beyond every bound (which happens only on cyclic curricula). -/
def binFillingGo (c : Curriculum) (maxCpt : Int) :
    Nat → List (Fin (numC c)) → List (List (Fin (numC c))) →
      List (Fin (numC c)) → Int → Option (List (List (Fin (numC c))))
  | fuel, UC, terms, cur, credits =>
    if UC.isEmpty then some (if cur.isEmpty then terms else terms ++ [cur])
    else
      match fuel with
      | 0 => none
      | fuel + 1 =>
        match select_vertex c cur UC with
        | some t =>
          let UC' := UC.erase t
          let ch := (courseAt c t).creditHours
          if credits + ch ≤ maxCpt then
            match binPropagate c (courseAt c t).id (UC'.length + 1) UC'
                (cur ++ [t]) (credits + ch) 0 with
            | (UC'', cur', credits') => binFillingGo c maxCpt fuel UC'' terms cur' credits'
          else
            match binPropagate c (courseAt c t).id (UC'.length + 1) UC' [t] ch 0 with
            | (UC'', cur', credits') =>
              binFillingGo c maxCpt fuel UC'' (terms ++ [cur]) cur' credits'
        | none =>
          binFillingGo c maxCpt fuel UC
            (if cur.isEmpty then terms else terms ++ [cur]) [] 0

/-- The initial unplaced-course list: all vertices, stably sorted by
`course_num` (Python's stable sort, modeled by stable insertion sort). -/
def initialUC (c : Curriculum) : List (Fin (numC c)) :=
  List.insertionSort
    (fun a b => strLe (course_num (courseAt c a)) (course_num (courseAt c b)) = true)
    (List.finRange (numC c))

/-- `bin_filling(curric, additional_courses, min_terms, max_terms, min_cpt,
max_cpt)`: the function body never consults `additional_courses`, `min_terms`,
`max_terms` or `min_cpt`, and has no `return False` — it always returns the
constructed term list when its loop terminates. -/
def bin_filling (c : Curriculum) (_addl : List Course) (_minTerms _maxTerms : Nat)
    (_minCpt : Int) (maxCpt : Int) (fuel : Nat) :
    Option (List (List (Fin (numC c)))) :=
  binFillingGo c maxCpt fuel (initialUC c) [] [] 0

/-- Total credit hours of a term given by vertex indices. -/
def termCredits (c : Curriculum) (t : List (Fin (numC c))) : Int :=
  (t.map (fun i => (courseAt c i).creditHours)).sum

/-- Check (a) of `DegreePlan.is_valid`: no course of an earlier term lists a
course of a strictly later term among its requisites. -/
def planNoBackReq (c : Curriculum) : List (List (Fin (numC c))) → Bool
  | [] => true
  | t :: rest =>
    rest.all (fun later =>
      later.all (fun course1 =>
        t.all (fun course2 =>
          lookupReq (courseAt c course2).requisites (courseAt c course1).id == none))) &&
      planNoBackReq c rest

/-- Check (b) of `DegreePlan.is_valid`: within a term, no course has another
course of the same term as a plain (`pre`) requisite. -/
def planNoSamePre (c : Curriculum) (terms : List (List (Fin (numC c)))) : Bool :=
  terms.all (fun t =>
    t.all (fun course =>
      t.all (fun r =>
        course == r ||
          lookupReq (courseAt c course).requisites (courseAt c r).id != some Req.pre)))

/-- Check (c) of `DegreePlan.is_valid`: every curriculum course id appears in
some term. -/
def planComplete (c : Curriculum) (terms : List (List (Fin (numC c)))) : Bool :=
  c.courses.all (fun course =>
    terms.any (fun t => t.any (fun i => (courseAt c i).id == course.id)))

/-- The ids of the plan's courses, in term order. -/
def planIds (c : Curriculum) (terms : List (List (Fin (numC c)))) : List Nat :=
  terms.flatten.map (fun i => (courseAt c i).id)

/-- Check (d) of `DegreePlan.is_valid`: no course id occurs twice in the plan. -/
def planNoDup (c : Curriculum) (terms : List (List (Fin (numC c)))) : Bool :=
  decide (planIds c terms).Nodup

/-- `DegreePlan.is_valid`: conjunction of the four checks. -/
def plan_is_valid (c : Curriculum) (terms : List (List (Fin (numC c)))) : Bool :=
  planNoBackReq c terms && planNoSamePre c terms && planComplete c terms &&
    planNoDup c terms

/-- Proposition form of check (a) between one earlier and one later term: no
course of the earlier term lists a course of the later term among its
requisites. -/
def backOk (c : Curriculum) (tE tL : List (Fin (numC c))) : Prop :=
  ∀ c1 ∈ tL, ∀ c2 ∈ tE,
    lookupReq (courseAt c c2).requisites (courseAt c c1).id = none

/-- Proposition form of check (b) for one term: no course has another course of
the same term as a plain prerequisite. -/
def samePreOk (c : Curriculum) (t : List (Fin (numC c))) : Prop :=
  ∀ u ∈ t, ∀ r ∈ t, u = r ∨
    lookupReq (courseAt c u).requisites (courseAt c r).id ≠ some Req.pre

/-- A degree plan object: a name, the curriculum, and terms of course
vertices. -/
structure DegreePlan where
  planName : List Char
  curric : Curriculum
  terms : List (List (Fin (numC curric)))

/-- `create_degree_plan(curric, create_terms, name, ...)`: run the pluggable
term-construction strategy; `None` exactly when it reports failure, otherwise a
`DegreePlan` wrapping the produced terms (the Python test `terms == False` is
false for every list, including `[]`). -/
def create_degree_plan
    (createTerms : (c : Curriculum) → Nat → Nat → Int → Int →
      Option (List (List (Fin (numC c)))))
    (c : Curriculum) (nm : List Char) (minTerms maxTerms : Nat)
    (minCpt maxCpt : Int) : Option DegreePlan :=
  match createTerms c minTerms maxTerms minCpt maxCpt with
  | none => none
  | some ts => some ⟨nm, c, ts⟩

end DegreePlanCreation

section Dfs

variable {n : Nat}

/-- Discovery/finish-time state of the depth-first search of `dfs(g)`
(`graph_algs.py`): a running clock and the two time maps (0 marks unset). -/
structure DfsState (n : Nat) where
  time : Nat
  d : Fin n → Nat
  f : Fin n → Nat

/-- One fold step of the DFS driver loops: visit the vertex when it is still
undiscovered, otherwise keep the state (failures propagate). -/
def dfsNext {n : Nat} (visit : Fin n → DfsState n → Option (DfsState n)) :
    Option (DfsState n) → Fin n → Option (DfsState n) :=
  fun acc w =>
    match acc with
    | none => none
    | some st => if st.d w = 0 then visit w st else some st

/-- `dfs_visit(s)`: stamp the discovery time, recurse into every undiscovered
successor in order, then stamp the finish time.  `fuel` bounds the recursion
depth; a fuel of at least the number of undiscovered vertices always
suffices. -/
def dfsVisit (adj : Fin n → Fin n → Bool) :
    Nat → Fin n → DfsState n → Option (DfsState n)
  | 0, _, _ => none
  | fuel + 1, s, st =>
    match (outNeighbors adj s).foldl (dfsNext (dfsVisit adj fuel))
        (some ⟨st.time + 1, Function.update st.d s (st.time + 1), st.f⟩) with
    | none => none
    | some st2 => some ⟨st2.time + 1, st2.d, Function.update st2.f s (st2.time + 1)⟩

/-- `dfs(g)`: visit every still-undiscovered vertex in vertex order.  (The edge
classification returned by the source is not consumed by `topological_sort`'s
ordering and is not modeled.) -/
def dfsAll (adj : Fin n → Fin n → Bool) (fuel : Nat) : Option (DfsState n) :=
  (List.finRange n).foldl (dfsNext (dfsVisit adj fuel))
    (some ⟨0, fun _ => 0, fun _ => 0⟩)

/-- `topo_order`: all vertices sorted by descending finish time (Python's
`sorted(..., reverse=True)` is stable, as is stable insertion sort). -/
def topoOrder (adj : Fin n → Fin n → Bool) (fuel : Nat) : Option (List (Fin n)) :=
  (dfsAll adj fuel).map (fun st =>
    List.insertionSort (fun a b => st.f b ≤ st.f a) (List.finRange n))

/-- The weakly connected component of `v`, listed in ascending vertex order.
(The source materializes each `networkx` component set with `list(s)`; for
CPython sets of machine-small ints `0..n-1` that iteration is ascending.) -/
def componentOf (adj : Fin n → Fin n → Bool) (v : Fin n) : List (Fin n) :=
  (List.finRange n).filter (fun w => hasPathB (undirAdj adj) v w)

/-- The weakly connected components, one per component, in ascending order of
their smallest vertex (`nx.weakly_connected_components` yields the component of
the first unseen vertex while scanning vertices in order). -/
def wccList (adj : Fin n → Fin n → Bool) : List (List (Fin n)) :=
  (List.finRange n).filterMap (fun v =>
    if (componentOf adj v).head? = some v then some (componentOf adj v) else none)

/-- The sort direction argument of `topological_sort`. -/
inductive SortOrd where
  | nosort
  | descending
  | ascending

/-- The head vertex of a component list, as a natural number (the Python sort
key `x[0]`). -/
def headV (comp : List (Fin n)) : Nat :=
  match comp.head? with
  | some v => v.val
  | none => 0

/-- The smallest vertex number occurring in a component (or `n` for the empty
list); invariant under reordering of the component. -/
def vmin {n : Nat} (comp : List (Fin n)) : Nat :=
  (comp.map Fin.val).foldr Nat.min n

/-- Sort the components by the Python keys `(-len(x), x[0])` (descending) or
`(len(x), x[0])` (ascending); `nosort` leaves the component order unchanged. -/
def sortComps (ord : SortOrd) (comps : List (List (Fin n))) : List (List (Fin n)) :=
  match ord with
  | SortOrd.nosort => comps
  | SortOrd.descending =>
    List.insertionSort
      (fun c1 c2 =>
        c2.length < c1.length ∨ (c1.length = c2.length ∧ headV c1 ≤ headV c2)) comps
  | SortOrd.ascending =>
    List.insertionSort
      (fun c1 c2 =>
        c1.length < c2.length ∨ (c1.length = c2.length ∧ headV c1 ≤ headV c2)) comps

/-- `topological_sort(g, sort)`: the weakly connected components, optionally
sorted by size with the `x[0]` tie-break, each internally ordered by position in
`topo_order` (i.e. by descending DFS finish time). -/
def topological_sort (adj : Fin n → Fin n → Bool) (ord : SortOrd) (fuel : Nat) :
    Option (List (List (Fin n))) :=
  (topoOrder adj fuel).map (fun order =>
    (sortComps ord (wccList adj)).map (fun comp =>
      List.insertionSort
        (fun a b => List.indexOf a order ≤ List.indexOf b order) comp))

end Dfs

section Similarity

/-- The non-strict course matcher of `Curriculum.similarity`: equal nonempty
names, or two `Course` objects with equal nonempty prefixes and equal nonempty
numbers. -/
def nonstrictMatch (course basisCourse : Course) : Bool :=
  (course.name != [] && basisCourse.name == course.name) ||
    (course.simple && basisCourse.simple &&
      course.pfx != [] && basisCourse.pfx == course.pfx &&
      course.num != [] && basisCourse.num == course.num)

/-- The number of courses of `c1` that match some course of the basis `c2`
(each counted once, as the Python inner loop breaks on the first match; under
`strict` a match is object identity, i.e. full equality including the tag). -/
def similarityMatches (c1 c2 : Curriculum) (strict : Bool) : Nat :=
  c1.courses.countP (fun course =>
    if strict then c2.courses.contains course
    else c2.courses.any (fun bc => nonstrictMatch course bc))

/-- `Curriculum.similarity(c1, basis)`: raises when the basis has no courses;
returns 1 when both arguments are the same curriculum object; otherwise the
match count over the number of basis courses. -/
def similarity (c1 c2 : Curriculum) (strict : Bool) : Res ℚ :=
  if c2.courses.length = 0 then Res.raised
  else if c1 = c2 then Res.ok 1
  else Res.ok ((similarityMatches c1 c2 strict : ℚ) / (c2.courses.length : ℚ))

/-- Modeled from the spec sentence for claim C9 (refinement comparison): "the
fraction of c2's courses also present in c1". -/
def similaritySpecFraction (c1 c2 : Curriculum) (strict : Bool) : ℚ :=
  ((c2.courses.countP (fun bc =>
      if strict then c1.courses.contains bc
      else c1.courses.any (fun course => nonstrictMatch bc course)) : ℚ) /
    (c2.courses.length : ℚ))

end Similarity

section AddRequisite

/-- Python dict assignment `d[k] = v` on an association list in insertion
order: overwrite the existing entry in place, else append. -/
def dictInsert (reqs : List (Nat × Req)) (k : Nat) (v : Req) : List (Nat × Req) :=
  match reqs with
  | [] => [(k, v)]
  | p :: rest => if p.1 = k then (k, v) :: rest else p :: dictInsert rest k v

/-- `AbstractCourse.add_requisite`: `self.requisites[requisite_course.id] =
requisite_type`. -/
def add_requisite (c r : Course) (t : Req) : Course :=
  { c with requisites := dictInsert c.requisites r.id t }

/-- `AbstractCourse.add_requisites`: add each pair in order. -/
def add_requisites (c : Course) (rs : List (Course × Req)) : Course :=
  rs.foldl (fun acc p => add_requisite acc p.1 p.2) c

/-- The requisite dictionary has pairwise distinct keys (the Python dict
invariant). -/
@[reducible] def NodupKeys (reqs : List (Nat × Req)) : Prop :=
  (reqs.map Prod.fst).Nodup

end AddRequisite

section ConcreteInputs

/-- The 8-course worked curriculum of the specification: courses A..H with
credit hours 3,3,3,1,3,3,3,3 and requisites (A,C)-pre, (B,C)-pre, (D,C)-co,
(C,E)-pre, (D,F)-pre.  Ids 1..8 are ascending, so the stored (id-sorted) course
order is the listed order. -/
def curriculumC1 : Curriculum :=
  { tag := 1, name := "Underwater Basket Weaving".data, systemType := Sys.semester,
    courses :=
      [ { tag := 1, id := 1, name := "A".data, pfx := "BW".data, num := "101".data,
          creditHours := 3, requisites := [], simple := true },
        { tag := 2, id := 2, name := "B".data, pfx := "BW".data, num := "101".data,
          creditHours := 3, requisites := [], simple := true },
        { tag := 3, id := 3, name := "C".data, pfx := "BW".data, num := "101".data,
          creditHours := 3, requisites := [(1, Req.pre), (2, Req.pre), (4, Req.co)],
          simple := true },
        { tag := 4, id := 4, name := "D".data, pfx := "BW".data, num := "101".data,
          creditHours := 1, requisites := [], simple := true },
        { tag := 5, id := 5, name := "E".data, pfx := "BW".data, num := "101".data,
          creditHours := 3, requisites := [(3, Req.pre)], simple := true },
        { tag := 6, id := 6, name := "F".data, pfx := "BW".data, num := "101".data,
          creditHours := 3, requisites := [(4, Req.pre)], simple := true },
        { tag := 7, id := 7, name := "G".data, pfx := "BW".data, num := "101".data,
          creditHours := 3, requisites := [], simple := true },
        { tag := 8, id := 8, name := "H".data, pfx := "BW".data, num := "101".data,
          creditHours := 3, requisites := [], simple := true } ] }

/-- Counterexample curriculum for claim C2: requisites `(W, Y)-pre` and
`(X, Y)-strict_co`.  Selecting `W` then `X` drags `Y` into the same term by
strict-co propagation, although `W` is a plain prerequisite of `Y`. -/
def curriculumC2x : Curriculum :=
  { tag := 2, name := "C2 counterexample".data, systemType := Sys.semester,
    courses :=
      [ { tag := 11, id := 1, name := "A1".data, pfx := [], num := [],
          creditHours := 3, requisites := [], simple := true },
        { tag := 12, id := 2, name := "A2".data, pfx := [], num := [],
          creditHours := 3, requisites := [], simple := true },
        { tag := 13, id := 3, name := "A3".data, pfx := [], num := [],
          creditHours := 3, requisites := [(1, Req.pre), (2, Req.strictCo)],
          simple := true } ] }

/-- Witness curriculum for the amended claims C2/C6: a two-course chain with no
strict co-requisites. -/
def curriculumCW : Curriculum :=
  { tag := 3, name := "two course chain".data, systemType := Sys.semester,
    courses :=
      [ { tag := 21, id := 1, name := "A1".data, pfx := [], num := [],
          creditHours := 3, requisites := [], simple := true },
        { tag := 22, id := 2, name := "A2".data, pfx := [], num := [],
          creditHours := 4, requisites := [(1, Req.pre)], simple := true } ] }

/-- Counterexample curriculum for claim C6: one 5-credit course; with
`max_cpt = 3` no term assignment can satisfy the credit bounds, yet
`bin_filling` still returns a term list. -/
def curriculumC6x : Curriculum :=
  { tag := 4, name := "C6 counterexample".data, systemType := Sys.semester,
    courses :=
      [ { tag := 31, id := 1, name := "Big".data, pfx := [], num := [],
          creditHours := 5, requisites := [], simple := true } ] }

/-- Cyclic curriculum for claim C5's witness: two courses that are plain
prerequisites of each other. -/
def curriculumC5x : Curriculum :=
  { tag := 5, name := "cyclic".data, systemType := Sys.semester,
    courses :=
      [ { tag := 41, id := 1, name := "A".data, pfx := [], num := [],
          creditHours := 3, requisites := [(2, Req.pre)], simple := true },
        { tag := 42, id := 2, name := "B".data, pfx := [], num := [],
          creditHours := 3, requisites := [(1, Req.pre)], simple := true } ] }

/-- A two-vertex graph with the single edge `0 → 1`, used by the C4 witness and
the C8 counterexample. -/
def adjEdge01 : Fin 2 → Fin 2 → Bool := fun u v => u.val = 0 && v.val = 1

/-- Four-vertex graph with edges `3 → 0` and `1 → 2`: two weakly connected
components of equal size whose topological orders start at 3 and at 1. -/
def adjC7 : Fin 4 → Fin 4 → Bool := fun u v =>
  (u.val = 3 && v.val = 0) || (u.val = 1 && v.val = 2)

/-- First curriculum of the C9 counterexample: two distinct course objects that
share the name "A". -/
def curriculumC9a : Curriculum :=
  { tag := 6, name := "C9 left".data, systemType := Sys.semester,
    courses :=
      [ { tag := 51, id := 1, name := "A".data, pfx := [], num := "1".data,
          creditHours := 3, requisites := [], simple := true },
        { tag := 52, id := 2, name := "A".data, pfx := [], num := "2".data,
          creditHours := 3, requisites := [], simple := true } ] }

/-- Second curriculum of the C9 counterexample: a single course named "A". -/
def curriculumC9b : Curriculum :=
  { tag := 7, name := "C9 right".data, systemType := Sys.semester,
    courses :=
      [ { tag := 53, id := 3, name := "A".data, pfx := [], num := "9".data,
          creditHours := 3, requisites := [], simple := true } ] }

/-- Concrete courses for the C10 witness. -/
def courseC10 : Course :=
  { tag := 61, id := 9, name := "Target".data, pfx := [], num := [],
    creditHours := 3, requisites := [(4, Req.co)], simple := true }

/-- The requisite course added twice in the C10 witness. -/
def courseC10r : Course :=
  { tag := 62, id := 7, name := "Requisite".data, pfx := [], num := [],
    creditHours := 3, requisites := [], simple := true }

end ConcreteInputs

section ReachBridge

variable {n : Nat} {adj : Fin n → Fin n → Bool}

lemma mem_outNeighbors {u v : Fin n} : v ∈ outNeighbors adj u ↔ adj u v = true := by
  simp [outNeighbors, List.mem_filter, List.mem_finRange]

lemma mem_inNeighbors {u v : Fin n} : u ∈ inNeighbors adj v ↔ adj u v = true := by
  simp [inNeighbors, List.mem_filter, List.mem_finRange]

lemma reachExpand_self (fuel : Nat) (u : Fin n) : reachExpand adj fuel u u = true := by
  cases fuel <;> simp [reachExpand]

lemma reachExpand_succ_of_edge {u w v : Fin n} (fuel : Nat) (h : adj u w = true)
    (hr : reachExpand adj fuel w v = true) : reachExpand adj (fuel + 1) u v = true := by
  simp only [reachExpand, Bool.or_eq_true, List.any_eq_true]
  exact Or.inr ⟨w, mem_outNeighbors.mpr h, hr⟩

lemma reachExpand_sound {u v : Fin n} :
    ∀ fuel, reachExpand adj fuel u v = true → Reaches adj u v := by
  intro fuel
  induction fuel generalizing u with
  | zero =>
    intro h
    simp only [reachExpand, beq_iff_eq] at h
    exact h ▸ Relation.ReflTransGen.refl
  | succ fuel ih =>
    intro h
    simp only [reachExpand, Bool.or_eq_true, beq_iff_eq, List.any_eq_true] at h
    rcases h with h | ⟨w, hw, hr⟩
    · exact h ▸ Relation.ReflTransGen.refl
    · exact Relation.ReflTransGen.head (mem_outNeighbors.mp hw) (ih hr)

lemma reaches_iff_exists_chain {u v : Fin n} :
    Reaches adj u v ↔
      ∃ l, List.Chain' (Step adj) (u :: l) ∧
        (u :: l).getLast (List.cons_ne_nil u l) = v := by
  constructor
  · intro h
    induction h with
    | refl => exact ⟨[], List.chain'_singleton u, rfl⟩
    | @tail b c _ hbc ih =>
      obtain ⟨l, hc, hlast⟩ := ih
      refine ⟨l ++ [c], ?_, ?_⟩
      · have key : List.Chain' (Step adj) ((u :: l) ++ [c]) →
            List.Chain' (Step adj) (u :: (l ++ [c])) := by
          intro hk
          simpa using hk
        refine key (List.chain'_append.mpr ⟨hc, List.chain'_singleton _, ?_⟩)
        intro x hx y hy
        simp only [List.head?_cons, Option.mem_def, Option.some.injEq] at hy
        rw [List.getLast?_eq_getLast _ (List.cons_ne_nil u l)] at hx
        simp only [Option.mem_def, Option.some.injEq] at hx
        subst hx; subst hy
        rwa [hlast]
      · have h9 : (u :: (l ++ [c])).getLast? = some c := by
          rw [show (u :: (l ++ [c])) = ((u :: l) ++ [c]) by simp,
            List.getLast?_append]
          simp
        rw [List.getLast?_eq_getLast _ (List.cons_ne_nil _ _)] at h9
        exact Option.some.inj h9
  · rintro ⟨l, hc, hlast⟩
    induction l generalizing u with
    | nil => exact hlast ▸ Relation.ReflTransGen.refl
    | cons w l ih =>
      rw [List.chain'_cons] at hc
      exact Relation.ReflTransGen.head hc.1 (ih hc.2 hlast)

lemma not_nodup_split {α : Type} [DecidableEq α] :
    ∀ l : List α, ¬l.Nodup → ∃ (x : α) (l₁ l₂ l₃ : List α),
      l = l₁ ++ x :: l₂ ++ x :: l₃ := by
  intro l
  induction l with
  | nil => intro h; exact absurd List.nodup_nil h
  | cons a l ih =>
    intro h
    by_cases ha : a ∈ l
    · obtain ⟨s, t, rfl⟩ := List.append_of_mem ha
      exact ⟨a, [], s, t, by simp⟩
    · have hl : ¬l.Nodup := fun hn => h (List.nodup_cons.mpr ⟨ha, hn⟩)
      obtain ⟨x, l₁, l₂, l₃, rfl⟩ := ih hl
      exact ⟨x, a :: l₁, l₂, l₃, by simp⟩

lemma chain_shorten_aux :
    ∀ (k : Nat) (l : List (Fin n)), l.length ≤ k → List.Chain' (Step adj) l →
      ∃ l', l'.Nodup ∧ List.Chain' (Step adj) l' ∧ l'.head? = l.head? ∧
        l'.getLast? = l.getLast? := by
  intro k
  induction k with
  | zero =>
    intro l hlen _
    have : l = [] := List.length_eq_zero.mp (Nat.le_zero.mp hlen)
    exact ⟨[], List.nodup_nil, List.chain'_nil, by simp [this], by simp [this]⟩
  | succ k ih =>
    intro l hlen hc
    by_cases hnd : l.Nodup
    · exact ⟨l, hnd, hc, rfl, rfl⟩
    · obtain ⟨x, l₁, l₂, l₃, rfl⟩ := not_nodup_split l hnd
      have assoc1 : l₁ ++ x :: l₂ ++ x :: l₃ = l₁ ++ ((x :: l₂) ++ (x :: l₃)) := by simp
      rw [assoc1] at hc
      have h1 := List.chain'_append.mp hc
      have h2 := List.chain'_append.mp h1.2.1
      have hc'' : List.Chain' (Step adj) (l₁ ++ x :: l₃) := by
        refine List.chain'_append.mpr ⟨h1.1, h2.2.1, ?_⟩
        intro a ha b hb
        exact h1.2.2 a ha b (by simpa using hb)
      have hlt : (l₁ ++ x :: l₃).length ≤ k := by
        simp only [List.length_append, List.length_cons] at hlen ⊢
        omega
      obtain ⟨l', hnd', hc', hh', hl'⟩ := ih (l₁ ++ x :: l₃) hlt hc''
      refine ⟨l', hnd', hc', ?_, ?_⟩
      · rw [hh']
        cases l₁ <;> simp
      · rw [hl']
        have ha : (x :: l₃).getLast? =
            some ((x :: l₃).getLast (List.cons_ne_nil x l₃)) :=
          List.getLast?_eq_getLast _ _
        have eA : (l₁ ++ (x :: l₃)).getLast? = (x :: l₃).getLast?.or l₁.getLast? :=
          List.getLast?_append
        have eB : ((l₁ ++ (x :: l₂)) ++ (x :: l₃)).getLast? =
            (x :: l₃).getLast?.or (l₁ ++ (x :: l₂)).getLast? :=
          List.getLast?_append
        rw [eA, eB, ha]
        rfl

lemma chain_shorten (l : List (Fin n)) (hc : List.Chain' (Step adj) l) :
    ∃ l', l'.Nodup ∧ List.Chain' (Step adj) l' ∧ l'.head? = l.head? ∧
      l'.getLast? = l.getLast? :=
  chain_shorten_aux l.length l le_rfl hc

lemma reachExpand_of_chain {v : Fin n} :
    ∀ (fuel : Nat) (t : List (Fin n)) (u : Fin n), t.length ≤ fuel →
      List.Chain' (Step adj) (u :: t) →
      (u :: t).getLast (List.cons_ne_nil u t) = v →
      reachExpand adj fuel u v = true := by
  intro fuel t
  induction t generalizing fuel with
  | nil =>
    intro u _ _ hlast
    simp only [List.getLast_singleton] at hlast
    exact hlast ▸ reachExpand_self fuel u
  | cons w t ih =>
    intro u hlen hc hlast
    match fuel, hlen with
    | fuel + 1, hlen =>
      rw [List.chain'_cons] at hc
      have hlast' : (w :: t).getLast (List.cons_ne_nil w t) = v := by
        rwa [List.getLast_cons (List.cons_ne_nil w t)] at hlast
      exact reachExpand_succ_of_edge fuel hc.1
        (ih fuel w (by simpa using hlen) hc.2 hlast')

lemma reaches_reachExpand {u v : Fin n} (h : Reaches adj u v) :
    reachExpand adj n u v = true := by
  obtain ⟨l, hc, hlast⟩ := reaches_iff_exists_chain.mp h
  obtain ⟨l', hnd, hc', hh, hl⟩ := chain_shorten (u :: l) hc
  have hh' : l'.head? = some u := by rw [hh]; rfl
  obtain ⟨t, rfl⟩ : ∃ t, l' = u :: t := by
    cases l' with
    | nil => simp at hh'
    | cons a t =>
      simp only [List.head?_cons, Option.some.injEq] at hh'
      exact ⟨t, by rw [hh']⟩
  have hlen : (u :: t).length ≤ n := by
    simpa using List.Nodup.length_le_card hnd
  have hlast2 : (u :: t).getLast (List.cons_ne_nil u t) = v := by
    have := hl.trans (List.getLast?_eq_getLast _ (List.cons_ne_nil u l))
    rw [List.getLast?_eq_getLast _ (List.cons_ne_nil u t)] at this
    simpa [hlast] using this
  have ht : t.length ≤ n := by
    simp only [List.length_cons] at hlen
    omega
  exact reachExpand_of_chain n t u ht hc' hlast2

lemma hasPathB_iff {u v : Fin n} : hasPathB adj u v = true ↔ Reaches adj u v :=
  ⟨reachExpand_sound n, reaches_reachExpand⟩

lemma hasPathB_of_edge {u v : Fin n} (h : adj u v = true) :
    hasPathB adj u v = true :=
  hasPathB_iff.mpr (Relation.ReflTransGen.single h)

lemma hasCycleB_iff : hasCycleB adj = true ↔ HasCycle adj := by
  constructor
  · intro h
    simp only [hasCycleB, List.any_eq_true] at h
    obtain ⟨v, _, w, hw, hp⟩ := h
    exact ⟨v, (Relation.TransGen.head'_iff).mpr
      ⟨w, mem_outNeighbors.mp hw, hasPathB_iff.mp hp⟩⟩
  · rintro ⟨v, hv⟩
    obtain ⟨w, hstep, hreach⟩ := (Relation.TransGen.head'_iff).mp hv
    simp only [hasCycleB, List.any_eq_true]
    exact ⟨v, List.mem_finRange v, w, mem_outNeighbors.mpr hstep,
      hasPathB_iff.mpr hreach⟩

lemma hasCycleB_eq_false_iff : hasCycleB adj = false ↔ Acyclic adj := by
  constructor
  · intro h v hv
    have h2 : hasCycleB adj = true := hasCycleB_iff.mpr ⟨v, hv⟩
    rw [h] at h2
    exact Bool.false_ne_true h2
  · intro h
    cases hcb : hasCycleB adj
    · rfl
    · obtain ⟨v, hv⟩ := hasCycleB_iff.mp hcb
      exact absurd hv (h v)

lemma acyclic_of_rank (rank : Fin n → Nat)
    (h : ∀ u v, adj u v = true → rank u < rank v) : Acyclic adj := by
  intro v hv
  have key : ∀ a b : Fin n, Relation.TransGen (Step adj) a b → rank a < rank b := by
    intro a b hab
    induction hab with
    | single h1 => exact h _ _ h1
    | tail _ h1 ih => exact lt_trans ih (h _ _ h1)
  exact absurd (key v v hv) (lt_irrefl _)

end ReachBridge

section ClaimC1

/-- C1: for the 8-course worked curriculum A..H (credit hours 3,3,3,1,3,3,3,3;
requisites (A,C)-pre, (B,C)-pre, (D,C)-co, (C,E)-pre, (D,F)-pre), the metrics
engine returns total blocking factor 8 with per-course values [2,2,1,3,0,0,0,0],
total delay factor 19 with per-course values [3,3,3,3,3,2,1,1], total
centrality 9 with course C the only nonzero at 9, total complexity 27 with
per-course values [5,5,4,6,3,2,1,1], and no extraneous requisites. -/
theorem claim_C1 :
    blocking_factors curriculumC1 20 = Res.ok [2, 2, 1, 3, 0, 0, 0, 0] ∧
    total_blocking_factor curriculumC1 20 = Res.ok 8 ∧
    delay_factors curriculumC1 20 = Res.ok [3, 3, 3, 3, 3, 2, 1, 1] ∧
    total_delay_factor curriculumC1 20 = Res.ok 19 ∧
    centralities curriculumC1 20 = Res.ok [0, 0, 9, 0, 0, 0, 0, 0] ∧
    total_centrality curriculumC1 20 = Res.ok 9 ∧
    complexities curriculumC1 20 = Res.ok [5, 5, 4, 6, 3, 2, 1, 1] ∧
    total_complexity curriculumC1 20 = Res.ok 27 ∧
    extraneous_requisites curriculumC1 20 = Res.ok [] := by
  have hb : blocking_factors curriculumC1 20 = Res.ok [2, 2, 1, 3, 0, 0, 0, 0] := by
    decide
  have hd : delay_factors curriculumC1 20 = Res.ok [3, 3, 3, 3, 3, 2, 1, 1] := by
    decide
  have hsys : curriculumC1.systemType = Sys.semester := rfl
  have hcx : complexities curriculumC1 20 = Res.ok [5, 5, 4, 6, 3, 2, 1, 1] := by
    rw [complexities, hd, hb, hsys]
    norm_num [List.zip]
    refine ⟨?_, ?_, ?_, ?_, ?_, ?_⟩ <;> (intro h; exact absurd h (by decide))
  refine ⟨hb, ?_, hd, ?_, by decide, ?_, hcx, ?_, by decide⟩
  · rw [total_blocking_factor, hb]; decide
  · rw [total_delay_factor, hd]; decide
  · rw [total_centrality, show centralities curriculumC1 20 =
      Res.ok [0, 0, 9, 0, 0, 0, 0, 0] by decide]
    decide
  · rw [total_complexity, hcx]
    show Res.ok ([(5 : ℚ), 5, 4, 6, 3, 2, 1, 1].sum) = Res.ok 27
    norm_num

end ClaimC1

section ClaimC10

lemma lookupReq_dictInsert (reqs : List (Nat × Req)) (k : Nat) (v : Req) :
    lookupReq (dictInsert reqs k v) k = some v := by
  induction reqs with
  | nil => simp [dictInsert, lookupReq]
  | cons p rest ih =>
    by_cases h : p.1 = k
    · simp [dictInsert, h, lookupReq]
    · simp [dictInsert, h, lookupReq, ih]

lemma keys_dictInsert_subset (reqs : List (Nat × Req)) (k : Nat) (v : Req) :
    ∀ x ∈ (dictInsert reqs k v).map Prod.fst, x = k ∨ x ∈ reqs.map Prod.fst := by
  induction reqs with
  | nil => simp [dictInsert]
  | cons p rest ih =>
    intro x hx
    by_cases h : p.1 = k
    · simp [dictInsert, h] at hx
      rcases hx with hx | hx
      · exact Or.inl hx
      · exact Or.inr (by simp [hx])
    · simp only [dictInsert, if_neg h, List.map_cons, List.mem_cons] at hx
      rcases hx with hx | hx
      · exact Or.inr (by simp [hx])
      · rcases ih x hx with h1 | h1
        · exact Or.inl h1
        · exact Or.inr (by simp [h1])

lemma nodupKeys_dictInsert {reqs : List (Nat × Req)} (h : NodupKeys reqs)
    (k : Nat) (v : Req) : NodupKeys (dictInsert reqs k v) := by
  induction reqs with
  | nil => simp [dictInsert, NodupKeys]
  | cons p rest ih =>
    rw [NodupKeys, List.map_cons, List.nodup_cons] at h
    by_cases hk : p.1 = k
    · subst hk
      have e1 : dictInsert (p :: rest) p.1 v = (p.1, v) :: rest := by
        simp [dictInsert]
      rw [NodupKeys, e1]
      simp only [List.map_cons, List.nodup_cons]
      exact h
    · have e1 : dictInsert (p :: rest) k v = p :: dictInsert rest k v := by
        simp [dictInsert, hk]
      rw [NodupKeys, e1]
      simp only [List.map_cons, List.nodup_cons]
      refine ⟨?_, ih h.2⟩
      intro hmem
      rcases keys_dictInsert_subset rest k v p.1 hmem with h1 | h1
      · exact hk h1
      · exact h.1 h1

lemma countP_key_zero {reqs : List (Nat × Req)} {k : Nat}
    (h : k ∉ reqs.map Prod.fst) :
    reqs.countP (fun p => p.1 == k) = 0 := by
  induction reqs with
  | nil => rfl
  | cons p rest ih =>
    simp only [List.map_cons, List.mem_cons, not_or] at h
    rw [List.countP_cons]
    have : (p.1 == k) = false := by
      simp only [beq_eq_false_iff_ne, ne_eq]
      exact fun he => h.1 he.symm
    simp [this, ih h.2]

lemma countP_dictInsert {reqs : List (Nat × Req)} (h : NodupKeys reqs)
    (k : Nat) (v : Req) :
    (dictInsert reqs k v).countP (fun p => p.1 == k) = 1 := by
  induction reqs with
  | nil => simp [dictInsert, List.countP_cons]
  | cons p rest ih =>
    rw [NodupKeys, List.map_cons, List.nodup_cons] at h
    by_cases hk : p.1 = k
    · subst hk
      have e1 : dictInsert (p :: rest) p.1 v = (p.1, v) :: rest := by
        simp [dictInsert]
      rw [e1, List.countP_cons, countP_key_zero h.1]
      simp
    · have e1 : dictInsert (p :: rest) k v = p :: dictInsert rest k v := by
        simp [dictInsert, hk]
      rw [e1, List.countP_cons]
      have hb : (p.1 == k) = false := by
        simp only [beq_eq_false_iff_ne, ne_eq]
        exact hk
      simp [hb, ih h.2]

lemma nodupKeys_add_requisite {c : Course} (h : NodupKeys c.requisites)
    (r : Course) (t : Req) : NodupKeys (add_requisite c r t).requisites :=
  nodupKeys_dictInsert h r.id t

lemma nodupKeys_add_requisites {c : Course} (h : NodupKeys c.requisites)
    (ops : List (Course × Req)) :
    NodupKeys (add_requisites c ops).requisites := by
  induction ops generalizing c with
  | nil => exact h
  | cons op rest ih =>
    exact ih (nodupKeys_add_requisite h op.1 op.2)

/-- C10: adding a requisite for an already-requisite course overwrites the kind
rather than raising or duplicating: after `add_requisite(r, k1)` followed by
`add_requisite(r, k2)`, the requisites map `r`'s id to `k2` with exactly one
entry for it, and every further sequence of `add_requisite`/`add_requisites`
calls preserves the at-most-one-relation-per-course invariant. -/
theorem claim_C10 (c r : Course) (k1 k2 : Req) (ops : List (Course × Req))
    (h : NodupKeys c.requisites) :
    lookupReq (add_requisite (add_requisite c r k1) r k2).requisites r.id =
      some k2 ∧
    (add_requisite (add_requisite c r k1) r k2).requisites.countP
      (fun p => p.1 == r.id) = 1 ∧
    NodupKeys (add_requisites (add_requisite (add_requisite c r k1) r k2)
      ops).requisites := by
  have h1 : NodupKeys (add_requisite c r k1).requisites :=
    nodupKeys_add_requisite h r k1
  refine ⟨lookupReq_dictInsert _ _ _, countP_dictInsert h1 r.id k2, ?_⟩
  exact nodupKeys_add_requisites (nodupKeys_add_requisite h1 r k2) ops

/-- Witness for C10 at concrete courses. -/
theorem claim_C10_witness :
    NodupKeys courseC10.requisites ∧
    (lookupReq (add_requisite (add_requisite courseC10 courseC10r Req.pre)
        courseC10r Req.strictCo).requisites courseC10r.id = some Req.strictCo ∧
      (add_requisite (add_requisite courseC10 courseC10r Req.pre)
        courseC10r Req.strictCo).requisites.countP
        (fun p => p.1 == courseC10r.id) = 1 ∧
      NodupKeys (add_requisites (add_requisite (add_requisite courseC10
        courseC10r Req.pre) courseC10r Req.strictCo)
        [(courseC10r, Req.co)]).requisites) :=
  ⟨by decide, claim_C10 courseC10 courseC10r Req.pre Req.strictCo
    [(courseC10r, Req.co)] (by decide)⟩

end ClaimC10

section ClaimC8

lemma countP_flatMap_pairs {α β : Type} (l1 : List α) (l2 : List β)
    (p : α → β → Bool) :
    ((l1.flatMap (fun u => l2.map (fun v => (u, v)))).filter
      (fun pr => p pr.1 pr.2)).length =
      (l1.map (fun u => (l2.filter (p u)).length)).sum := by
  induction l1 with
  | nil => rfl
  | cons a l1 ih =>
    simp only [List.flatMap_cons, List.filter_append, List.length_append,
      List.map_cons, List.sum_cons, ih]
    rw [List.filter_map, List.length_map]
    rfl

lemma filter_mem_filter {n : Nat} (adj : Fin n → Fin n → Bool)
    (s : List (Fin n)) (u : Fin n) :
    ((List.finRange n).filter (fun x => decide (x ∉ s))).filter (fun v => adj u v) =
      (List.finRange n).filter (fun v => adj u v && decide (v ∉ s)) := by
  rw [List.filter_filter]

/-- C8 corrected: for duplicate-free `s`, `edge_crossings(g, s)` counts exactly
the edges directed from a vertex inside `s` to a vertex outside `s` (edges
entering `s` from outside are not counted, because `g.has_edge(s, v)` is a
directed test). -/
theorem claim_C8_amended {n : Nat} (adj : Fin n → Fin n → Bool)
    (s : List (Fin n)) (hs : s.Nodup) :
    edge_crossings adj s = directedCutCount adj s := by
  rw [directedCutCount, allPairs,
    countP_flatMap_pairs (List.finRange n) (List.finRange n)
      (fun u v => adj u v && decide (u ∈ s) && decide (v ∉ s))]
  rw [edge_crossings]
  have step1 : ∀ u : Fin n,
      ((List.finRange n).filter
        (fun v => adj u v && decide (u ∈ s) && decide (v ∉ s))).length =
      if u ∈ s then
        ((List.finRange n).filter (fun v => adj u v && decide (v ∉ s))).length
      else 0 := by
    intro u
    by_cases hu : u ∈ s
    · have hdec : decide (u ∈ s) = true := by simp [hu]
      rw [if_pos hu]
      congr 1
      apply List.filter_congr
      intro v _
      rw [hdec, Bool.and_true]
    · have hdec : decide (u ∈ s) = false := by simp [hu]
      rw [if_neg hu, List.length_eq_zero]
      apply List.filter_eq_nil_iff.mpr
      intro v _
      rw [hdec, Bool.and_false, Bool.false_and]
      simp
  have step2 : ∀ v : Fin n, v ∈ s →
      edge_crossings_vertex adj v
        ((List.finRange n).filter (fun x => decide (x ∉ s))) =
      ((List.finRange n).filter (fun w => adj v w && decide (w ∉ s))).length := by
    intro v _
    rw [edge_crossings_vertex, filter_mem_filter]
  have lhs_eq : (s.map (fun v =>
      edge_crossings_vertex adj v
        ((List.finRange n).filter (fun x => decide (x ∉ s))))).sum =
      (s.map (fun v =>
        ((List.finRange n).filter (fun w => adj v w && decide (w ∉ s))).length)).sum := by
    congr 1
    apply List.map_congr_left
    intro v hv
    exact step2 v hv
  rw [lhs_eq]
  have rhs_eq : ((List.finRange n).map (fun u =>
      ((List.finRange n).filter
        (fun v => adj u v && decide (u ∈ s) && decide (v ∉ s))).length)).sum =
      ((List.finRange n).map (fun u =>
        if u ∈ s then
          ((List.finRange n).filter (fun v => adj u v && decide (v ∉ s))).length
        else 0)).sum := by
    congr 1
    apply List.map_congr_left
    intro u _
    exact step1 u
  rw [rhs_eq]
  set f : Fin n → Nat := fun v =>
    ((List.finRange n).filter (fun w => adj v w && decide (w ∉ s))).length with hf
  have left : (s.map f).sum = s.toFinset.sum f :=
    (List.sum_toFinset f hs).symm
  have right : ((List.finRange n).map (fun u => if u ∈ s then f u else 0)).sum =
      Finset.univ.sum (fun u => if u ∈ s then f u else 0) := by
    rw [← List.sum_toFinset _ (List.nodup_finRange n)]
    congr 1
    simp
  rw [left, right]
  rw [← Finset.sum_filter]
  congr 1
  ext u
  simp

/-- Counterexample for C8 as stated: in the one-edge graph `0 → 1` with
`s = [1]`, the edge has exactly one endpoint in `s` but enters `s` from
outside, so `edge_crossings` returns 0 while the claim's both-direction count
is 1. -/
theorem claim_C8_cex :
    edge_crossings adjEdge01 [1] = 0 ∧
    undirectedCutCount adjEdge01 [1] = 1 ∧ (0 : Nat) ≠ 1 := by
  refine ⟨by decide, by decide, by decide⟩

/-- Witness for the amended C8 at a concrete input. -/
theorem claim_C8_witness :
    ([0] : List (Fin 2)).Nodup ∧
    edge_crossings adjEdge01 [0] = directedCutCount adjEdge01 [0] :=
  ⟨by decide, claim_C8_amended adjEdge01 [0] (by decide)⟩

end ClaimC8

section ClaimC9

/-- C9 corrected: `similarity(c1, c2, strict)` raises exactly when `c2` has no
courses; it returns 1 when both arguments are the same curriculum object, and
otherwise the number of `c1`'s courses matching some course of `c2` divided by
the number of `c2`'s courses — a value that is not the claim's "fraction of
`c2`'s courses present in `c1`" and can even exceed 1.  The match count never
exceeds the number of `c1`'s courses. -/
theorem claim_C9_amended (c1 c2 : Curriculum) (strict : Bool) :
    (similarity c1 c2 strict = Res.raised ↔ c2.courses.length = 0) ∧
    similarity c1 c2 strict =
      (if c2.courses.length = 0 then Res.raised
       else if c1 = c2 then Res.ok 1
       else Res.ok ((similarityMatches c1 c2 strict : ℚ) /
         (c2.courses.length : ℚ))) ∧
    similarityMatches c1 c2 strict ≤ c1.courses.length := by
  refine ⟨?_, rfl, List.countP_le_length _⟩
  rw [similarity]
  by_cases h0 : c2.courses.length = 0
  · simp [h0]
  · rw [if_neg h0]
    by_cases he : c1 = c2
    · rw [if_pos he]
      simp [h0]
    · rw [if_neg he]
      simp [h0]

/-- Counterexample for C9 as stated: `c1` holds two distinct courses named "A"
and `c2` one course named "A"; with `strict = False` the code counts both of
`c1`'s courses against `c2`'s single course and returns 2, while the fraction
of `c2`'s courses also present in `c1` is 1. -/
theorem claim_C9_cex :
    similarity curriculumC9a curriculumC9b false = Res.ok 2 ∧
    similaritySpecFraction curriculumC9a curriculumC9b false = 1 ∧
    (2 : ℚ) ≠ 1 := by
  have hm : similarityMatches curriculumC9a curriculumC9b false = 2 := by decide
  have hlen : curriculumC9b.courses.length = 1 := rfl
  refine ⟨?_, ?_, by norm_num⟩
  · rw [similarity, if_neg (by decide), if_neg (by decide), hm, hlen]
    norm_num
  · rw [similaritySpecFraction, hlen,
      show curriculumC9b.courses.countP (fun bc =>
        if false = true then curriculumC9a.courses.contains bc
        else curriculumC9a.courses.any fun course => nonstrictMatch bc course) = 1
      by decide]
    norm_num

end ClaimC9

section ClaimC4

variable {n : Nat} {adj : Fin n → Fin n → Bool}

/-- The property every completed path of `all_paths` satisfies. -/
def GoodPath (adj : Fin n → Fin n → Bool) (p : List (Fin n)) : Prop :=
  2 ≤ p.length ∧ ∃ hp : p ≠ [],
    inDegree adj (p.head hp) = 0 ∧ outDegree adj (p.getLast hp) = 0

/-- The invariant of queue entries: nonempty, ending at an out-degree-0
vertex. -/
def QueuePath (adj : Fin n → Fin n → Bool) (x : List (Fin n)) : Prop :=
  ∃ hx : x ≠ [], outDegree adj (x.getLast hx) = 0

lemma allPathsGo_inv :
    ∀ (fuel : Nat) (que paths res : List (List (Fin n))),
      (∀ x ∈ que, QueuePath adj x) →
      (∀ p ∈ paths, GoodPath adj p) →
      allPathsGo adj fuel que paths = Res.ok res →
      ∀ p ∈ res, GoodPath adj p := by
  intro fuel
  induction fuel with
  | zero =>
    intro que paths res _ hp hrun
    cases que with
    | nil =>
      simp only [allPathsGo, Res.ok.injEq] at hrun
      exact hrun ▸ hp
    | cons x rest => simp [allPathsGo] at hrun
  | succ fuel ih =>
    intro que paths res hq hp hrun
    cases que with
    | nil =>
      simp only [allPathsGo, Res.ok.injEq] at hrun
      exact hrun ▸ hp
    | cons x rest =>
      cases x with
      | nil =>
        simp only [allPathsGo, Res.ok.injEq] at hrun
        exact hrun ▸ hp
      | cons h t =>
        rw [allPathsGo] at hrun
        refine ih _ _ _ ?_ ?_ hrun
        · intro y hy
          rcases List.mem_append.mp hy with hy | hy
          · exact hq y (List.mem_cons_of_mem _ hy)
          · obtain ⟨u, _, rfl⟩ := List.mem_map.mp hy
            obtain ⟨hne, hlast⟩ := hq (h :: t) (List.mem_cons_self _ _)
            refine ⟨List.cons_ne_nil u (h :: t), ?_⟩
            rwa [List.getLast_cons hne]
        · intro y hy
          rcases List.mem_append.mp hy with hy | hy
          · exact hp y hy
          · obtain ⟨u, hu, rfl⟩ := List.mem_map.mp hy
            obtain ⟨_, hdeg⟩ := List.mem_filter.mp hu
            obtain ⟨hne, hlast⟩ := hq (h :: t) (List.mem_cons_self _ _)
            refine ⟨by simp, List.cons_ne_nil u (h :: t), ?_, ?_⟩
            · simpa using Nat.beq_eq_true_eq _ _ |>.mp (by simpa using hdeg)
            · rwa [List.getLast_cons hne]

lemma allPathsSinks_inv :
    ∀ (sinks : List (Fin n)) (fuel : Nat) (res : List (List (Fin n))),
      (∀ v ∈ sinks, outDegree adj v = 0) →
      allPathsSinks adj fuel sinks = Res.ok res →
      ∀ p ∈ res, GoodPath adj p := by
  intro sinks
  induction sinks with
  | nil =>
    intro fuel res _ hrun
    simp only [allPathsSinks, Res.ok.injEq] at hrun
    subst hrun
    simp
  | cons v vs ih =>
    intro fuel res hs hrun
    rw [allPathsSinks] at hrun
    cases h1 : allPathsGo adj fuel [[v]] [] with
    | ok ps =>
      rw [h1] at hrun
      cases h2 : allPathsSinks adj fuel vs with
      | ok rest =>
        rw [h2] at hrun
        simp only [Res.ok.injEq] at hrun
        subst hrun
        intro p hp
        rcases List.mem_append.mp hp with hp | hp
        · refine allPathsGo_inv fuel [[v]] [] ps ?_ (by simp) h1 p hp
          intro x hx
          simp only [List.mem_singleton] at hx
          subst hx
          exact ⟨List.cons_ne_nil v [], by
            simpa using hs v (List.mem_cons_self _ _)⟩
        · exact ih fuel rest (fun w hw => hs w (List.mem_cons_of_mem _ hw)) h2 p hp
      | raised => rw [h2] at hrun; exact absurd hrun (by simp)
      | spin => rw [h2] at hrun; exact absurd hrun (by simp)
    | raised => rw [h1] at hrun; exact absurd hrun (by simp)
    | spin => rw [h1] at hrun; exact absurd hrun (by simp)

lemma sinkList_outDegree : ∀ v ∈ sinkList adj, outDegree adj v = 0 := by
  intro v hv
  obtain ⟨-, hcond⟩ := List.mem_filter.mp hv
  simp only [Bool.and_eq_true] at hcond
  simpa using Nat.beq_eq_true_eq _ _ |>.mp (by simpa using hcond.1)

lemma maxPathLen_ge_init :
    ∀ (paths : List (List (Fin n))) (m0 : Nat),
      m0 ≤ paths.foldl (fun m p => if p.length > m then p.length else m) m0 := by
  intro paths
  induction paths with
  | nil => intro m0; exact le_rfl
  | cons p rest ih =>
    intro m0
    refine le_trans ?_ (ih (if p.length > m0 then p.length else m0))
    by_cases h : p.length > m0
    · simp only [if_pos h]
      omega
    · simp [h]

lemma maxPathLen_ge_mem :
    ∀ (paths : List (List (Fin n))) (m0 : Nat) (p : List (Fin n)), p ∈ paths →
      p.length ≤ paths.foldl (fun m q => if q.length > m then q.length else m) m0 := by
  intro paths
  induction paths with
  | nil => intro m0 p hp; exact absurd hp (List.not_mem_nil p)
  | cons q rest ih =>
    intro m0 p hp
    rcases List.mem_cons.mp hp with rfl | hp
    · refine le_trans ?_ (maxPathLen_ge_init rest _)
      by_cases h : p.length > m0
      · simp only [if_pos h]
        exact le_rfl
      · simp only [if_neg h]
        omega
    · exact ih _ p hp

/-- C4: whenever `all_paths` returns a path list, every path has at least two
vertices, starts at an in-degree-0 vertex and ends at an out-degree-0 vertex;
and whenever `longest_paths` returns, its elements all belong to `all_paths`'s
result and share the maximum vertex count over it. -/
theorem claim_C4 (adj : Fin n → Fin n → Bool) (fuel : Nat)
    (ps lps : List (List (Fin n)))
    (hall : all_paths adj fuel = Res.ok ps)
    (hlong : longest_paths adj fuel = Res.ok lps) :
    (∀ p ∈ ps, 2 ≤ p.length ∧ ∃ hp : p ≠ [],
      inDegree adj (p.head hp) = 0 ∧ outDegree adj (p.getLast hp) = 0) ∧
    (∀ q ∈ lps, q ∈ ps) ∧
    (∀ q ∈ lps, q.length = maxPathLen ps) ∧
    (∀ p ∈ ps, p.length ≤ maxPathLen ps) := by
  have hnc : hasCycleB adj = false := by
    cases hcb : hasCycleB adj
    · rfl
    · rw [all_paths, if_pos hcb] at hall
      exact absurd hall (by simp)
  rw [all_paths, if_neg (by simp [hnc])] at hall
  have hlps : lps = ps.filter (fun p => p.length == maxPathLen ps) := by
    rw [longest_paths, if_neg (by simp [hnc]), all_paths,
      if_neg (by simp [hnc]), hall] at hlong
    simpa using hlong.symm
  refine ⟨?_, ?_, ?_, ?_⟩
  · intro p hp
    exact allPathsSinks_inv (sinkList adj) fuel ps sinkList_outDegree hall p hp
  · intro q hq
    rw [hlps] at hq
    exact List.mem_of_mem_filter hq
  · intro q hq
    rw [hlps] at hq
    obtain ⟨-, hcond⟩ := List.mem_filter.mp hq
    exact Nat.beq_eq_true_eq _ _ |>.mp hcond
  · intro p hp
    exact maxPathLen_ge_mem ps 0 p hp

/-- Witness for C4 on the one-edge graph `0 → 1`. -/
theorem claim_C4_witness :
    all_paths adjEdge01 10 = Res.ok [[0, 1]] ∧
    longest_paths adjEdge01 10 = Res.ok [[0, 1]] ∧
    ((∀ p ∈ [([0, 1] : List (Fin 2))], 2 ≤ p.length ∧ ∃ hp : p ≠ [],
        inDegree adjEdge01 (p.head hp) = 0 ∧
          outDegree adjEdge01 (p.getLast hp) = 0) ∧
      (∀ q ∈ [([0, 1] : List (Fin 2))], q ∈ [([0, 1] : List (Fin 2))]) ∧
      (∀ q ∈ [([0, 1] : List (Fin 2))],
        q.length = maxPathLen [([0, 1] : List (Fin 2))]) ∧
      (∀ p ∈ [([0, 1] : List (Fin 2))],
        p.length ≤ maxPathLen [([0, 1] : List (Fin 2))])) :=
  ⟨by decide, by decide,
    claim_C4 adjEdge01 10 [[0, 1]] [[0, 1]] (by decide) (by decide)⟩

end ClaimC4

section ClaimC5

variable {n : Nat} {adj : Fin n → Fin n → Bool}

lemma cycle_step {v : Fin n} (h : Relation.TransGen (Step adj) v v) :
    ∃ w, adj v w = true ∧ Relation.TransGen (Step adj) w w := by
  obtain ⟨w, hstep, hreach⟩ := (Relation.TransGen.head'_iff).mp h
  exact ⟨w, hstep, Relation.TransGen.tail' hreach hstep⟩

/-- The fold body of `reachableFromAux`. -/
lemma reachFold_absorb (fuel : Nat) :
    ∀ (l : List (Fin n)) (r : Res (List (Fin n))), (∀ vl, r ≠ Res.ok vl) →
      l.foldl (fun acc v =>
        match acc with
        | Res.ok vl => reachableFromAux adj fuel v (if v ∈ vl then vl else vl ++ [v])
        | r => r) r = r := by
  intro l
  induction l with
  | nil => intro r _; rfl
  | cons v rest ih =>
    intro r hr
    cases r with
    | ok vl => exact absurd rfl (hr vl)
    | raised => exact ih Res.raised (by simp)
    | spin => exact ih Res.spin (by simp)

lemma reachableFromAux_ne_raised :
    ∀ (fuel : Nat) (s : Fin n) (vlist : List (Fin n)),
      reachableFromAux adj fuel s vlist ≠ Res.raised := by
  intro fuel
  induction fuel with
  | zero => intro s vlist; simp [reachableFromAux]
  | succ fuel ih =>
    intro s vlist
    rw [reachableFromAux]
    have gen : ∀ (l : List (Fin n)) (r : Res (List (Fin n))), r ≠ Res.raised →
        l.foldl (fun acc v =>
          match acc with
          | Res.ok vl =>
            reachableFromAux adj fuel v (if v ∈ vl then vl else vl ++ [v])
          | r => r) r ≠ Res.raised := by
      intro l
      induction l with
      | nil => intro r hr; exact hr
      | cons v rest ih2 =>
        intro r hr
        rw [List.foldl_cons]
        apply ih2
        cases r with
        | ok vl => exact ih v _
        | raised => exact hr
        | spin => simp
    exact gen _ _ (by simp)

lemma reachableFromAux_spin :
    ∀ (fuel : Nat) (s : Fin n), Relation.TransGen (Step adj) s s →
      ∀ vlist, reachableFromAux adj fuel s vlist = Res.spin := by
  intro fuel
  induction fuel with
  | zero => intro s _ vlist; rfl
  | succ fuel ih =>
    intro s hs vlist
    obtain ⟨w, hw, hcycw⟩ := cycle_step hs
    have hwmem : w ∈ outNeighbors adj s := mem_outNeighbors.mpr hw
    obtain ⟨l1, l2, hsplit⟩ := List.append_of_mem hwmem
    rw [reachableFromAux, hsplit, List.foldl_append, List.foldl_cons]
    set acc1 := l1.foldl (fun acc v =>
      match acc with
      | Res.ok vl => reachableFromAux adj fuel v (if v ∈ vl then vl else vl ++ [v])
      | r => r) (Res.ok vlist) with hacc1
    have step2 : (match acc1 with
        | Res.ok vl => reachableFromAux adj fuel w (if w ∈ vl then vl else vl ++ [w])
        | r => r) = Res.spin := by
      cases hval : acc1 with
      | ok vl => exact ih w hcycw _
      | raised =>
        exfalso
        have gen : ∀ (l : List (Fin n)) (r : Res (List (Fin n))), r ≠ Res.raised →
            l.foldl (fun acc v =>
              match acc with
              | Res.ok vl =>
                reachableFromAux adj fuel v (if v ∈ vl then vl else vl ++ [v])
              | r => r) r ≠ Res.raised := by
          intro l
          induction l with
          | nil => intro r hr; exact hr
          | cons v rest ih2 =>
            intro r hr
            rw [List.foldl_cons]
            apply ih2
            cases r with
            | ok vl2 => exact reachableFromAux_ne_raised fuel v _
            | raised => exact hr
            | spin => simp
        exact gen l1 (Res.ok vlist) (by simp) (hacc1 ▸ hval)
      | spin => rfl
    rw [step2]
    exact reachFold_absorb fuel l2 Res.spin (by simp)

lemma mapRes_spin {α β : Type} (f : α → Res β) :
    ∀ l : List α, (∀ a ∈ l, f a ≠ Res.raised) → (∃ a ∈ l, f a = Res.spin) →
      mapRes f l = Res.spin := by
  intro l
  induction l with
  | nil => rintro _ ⟨a, ha, _⟩; exact absurd ha (List.not_mem_nil a)
  | cons a rest ih =>
    rintro hnr ⟨b, hb, hspin⟩
    rw [mapRes]
    rcases List.mem_cons.mp hb with rfl | hb
    · rw [hspin]
    · cases hfa : f a with
      | ok v =>
        rw [ih (fun x hx => hnr x (List.mem_cons_of_mem _ hx)) ⟨b, hb, hspin⟩]
      | raised => exact absurd hfa (hnr a (List.mem_cons_self _ _))
      | spin => rfl

/-- C5: on a curriculum whose requisite graph contains a directed cycle, every
path-dependent analytic fails instead of returning a value: `all_paths`,
`longest_paths`, `extraneous_requisites`, the delay factors, centralities and
complexities raise their cycle errors, and the blocking factors never return
for any recursion depth bound (`reachable_from` recurses unboundedly; the
Python runtime turns this into a `RecursionError`). -/
theorem claim_C5 (c : Curriculum) (fuel : Nat)
    (hcyc : HasCycle (curricAdj c)) :
    all_paths (curricAdj c) fuel = Res.raised ∧
    longest_paths (curricAdj c) fuel = Res.raised ∧
    extraneous_requisites c fuel = Res.raised ∧
    delay_factors c fuel = Res.raised ∧
    centralities c fuel = Res.raised ∧
    complexities c fuel = Res.raised ∧
    blocking_factors c fuel = Res.spin := by
  have hcb : hasCycleB (curricAdj c) = true := hasCycleB_iff.mpr hcyc
  have hall : all_paths (curricAdj c) fuel = Res.raised := by
    rw [all_paths, if_pos hcb]
  have hdel : delay_factors c fuel = Res.raised := by
    rw [delay_factors, hall]
  refine ⟨hall, ?_, ?_, hdel, ?_, ?_, ?_⟩
  · rw [longest_paths, if_pos hcb]
  · rw [extraneous_requisites, if_pos hcb]
  · rw [centralities, hall]
  · rw [complexities, hdel]
  · obtain ⟨v, hv⟩ := hcyc
    apply mapRes_spin
    · intro i _
      rw [reachable_from]
      cases hr : reachableFromAux (curricAdj c) fuel i [] with
      | ok _ => simp [Res.map]
      | raised => exact absurd hr (reachableFromAux_ne_raised fuel i [])
      | spin => simp [Res.map]
    · refine ⟨v, List.mem_finRange v, ?_⟩
      rw [reachable_from, reachableFromAux_spin fuel v hv []]
      rfl

/-- Witness for C5 on the two-course cyclic curriculum. -/
theorem claim_C5_witness :
    HasCycle (curricAdj curriculumC5x) ∧
    (all_paths (curricAdj curriculumC5x) 5 = Res.raised ∧
      longest_paths (curricAdj curriculumC5x) 5 = Res.raised ∧
      extraneous_requisites curriculumC5x 5 = Res.raised ∧
      delay_factors curriculumC5x 5 = Res.raised ∧
      centralities curriculumC5x 5 = Res.raised ∧
      complexities curriculumC5x 5 = Res.raised ∧
      blocking_factors curriculumC5x 5 = Res.spin) := by
  have hstep01 : Step (curricAdj curriculumC5x)
      ⟨0, by decide⟩ ⟨1, by decide⟩ := by decide
  have hstep10 : Step (curricAdj curriculumC5x)
      ⟨1, by decide⟩ ⟨0, by decide⟩ := by decide
  have hcyc : HasCycle (curricAdj curriculumC5x) :=
    ⟨⟨0, by decide⟩,
      Relation.TransGen.head hstep01 (Relation.TransGen.single hstep10)⟩
  exact ⟨hcyc, claim_C5 curriculumC5x 5 hcyc⟩

end ClaimC5

section ClaimC3

variable {n : Nat} {adj : Fin n → Fin n → Bool}

lemma chainB_iff : ∀ l : List (Fin n),
    chainB adj l = true ↔ List.Chain' (Step adj) l := by
  intro l
  match l with
  | [] => simp [chainB]
  | [a] => simp [chainB]
  | a :: b :: rest =>
    rw [chainB, List.chain'_cons, Bool.and_eq_true]
    exact and_congr Iff.rfl (chainB_iff (b :: rest))

lemma isCycleB_iff (l : List (Fin n)) :
    isCycleB adj l = true ↔
      ∃ h : l ≠ [], List.Chain' (Step adj) l ∧
        Step adj (l.getLast h) (l.head h) := by
  match l with
  | [] => simp [isCycleB]
  | h :: t =>
    rw [isCycleB, Bool.and_eq_true, chainB_iff]
    rw [List.getLast?_eq_getLast (h :: t) (List.cons_ne_nil h t)]
    constructor
    · rintro ⟨hc, hlast⟩
      exact ⟨List.cons_ne_nil h t, hc, hlast⟩
    · rintro ⟨_, hc, hlast⟩
      exact ⟨hc, hlast⟩

lemma mem_nodupLists {l : List (Fin n)} : l ∈ nodupLists n ↔ l.Nodup := by
  rw [nodupLists, List.mem_flatMap]
  constructor
  · rintro ⟨s, hs, hperm⟩
    have hsub : s.Sublist (List.finRange n) := List.mem_sublists.mp hs
    have hnd : s.Nodup := hsub.nodup (List.nodup_finRange n)
    exact ((List.mem_permutations.mp hperm).nodup_iff).mpr hnd
  · intro hnd
    refine ⟨(List.finRange n).filter (fun x => decide (x ∈ l)), ?_, ?_⟩
    · exact List.mem_sublists.mpr (List.filter_sublist _)
    · apply List.mem_permutations.mpr
      apply List.perm_iff_count.mpr
      intro a
      have hndf : ((List.finRange n).filter (fun x => decide (x ∈ l))).Nodup :=
        (List.filter_sublist _).nodup (List.nodup_finRange n)
      by_cases ha : a ∈ l
      · rw [List.count_eq_one_of_mem hnd ha,
          List.count_eq_one_of_mem hndf (by simp [List.mem_filter, ha])]
      · rw [List.count_eq_zero.mpr ha,
          List.count_eq_zero.mpr (by simp [List.mem_filter, ha])]

lemma simple_cycles_filter_iff (p : List (Fin n) → Bool) :
    (simple_cycles adj).filter p ≠ [] ↔
      ∃ l, IsSimpleCycle adj l ∧ p l = true := by
  rw [Ne, List.filter_eq_nil_iff]
  push_neg
  constructor
  · rintro ⟨l, hl, hp⟩
    obtain ⟨hmem, hcyc⟩ := List.mem_filter.mp hl
    obtain ⟨hne, hc, hlast⟩ := (isCycleB_iff l).mp hcyc
    exact ⟨l, ⟨hne, mem_nodupLists.mp hmem, hc, hlast⟩, hp⟩
  · rintro ⟨l, ⟨hne, hnd, hc, hlast⟩, hp⟩
    refine ⟨l, List.mem_filter.mpr ⟨mem_nodupLists.mpr hnd, ?_⟩, hp⟩
    exact (isCycleB_iff l).mpr ⟨hne, hc, hlast⟩

lemma simple_cycles_ne_nil_iff :
    simple_cycles adj ≠ [] ↔ ∃ l, IsSimpleCycle adj l := by
  have h := @simple_cycles_filter_iff n adj (fun _ => true)
  rw [List.filter_true] at h
  rw [h]
  simp

/-- C3: `Curriculum.is_valid` returns `False` exactly when the original
requisite graph has a simple cycle or the strict-co augmented graph has a
simple cycle of length different from 2, and exactly in that case the
diagnostic written to the supplied buffer (one course-name list per cycle) is
nonempty. -/
theorem claim_C3 (c : Curriculum) :
    (is_valid c = false ↔
      ((∃ l, IsSimpleCycle (curricAdj c) l) ∨
        (∃ l, IsSimpleCycle (strictCoAugAdj c) l ∧ l.length ≠ 2))) ∧
    (is_valid_errors c ≠ [] ↔ is_valid c = false) := by
  have hmain : is_valid c = false ↔ is_valid_cycles c ≠ [] := by
    rw [is_valid]
    cases h : is_valid_cycles c with
    | nil => simp
    | cons a l => simp
  constructor
  · rw [hmain, is_valid_cycles]
    have hne : ((simple_cycles (strictCoAugAdj c)).filter
          (fun l => l.length != 2) ++ simple_cycles (curricAdj c)) ≠ [] ↔
        ((simple_cycles (strictCoAugAdj c)).filter (fun l => l.length != 2) ≠ [] ∨
          simple_cycles (curricAdj c) ≠ []) := by
      rw [Ne, List.append_eq_nil, not_and_or]
    rw [hne, simple_cycles_ne_nil_iff, simple_cycles_filter_iff]
    constructor
    · rintro (⟨l, hl, hp⟩ | h)
      · exact Or.inr ⟨l, hl, by simpa using hp⟩
      · exact Or.inl h
    · rintro (h | ⟨l, hl, hp⟩)
      · exact Or.inr h
      · exact Or.inl ⟨l, hl, by simpa using hp⟩
  · rw [hmain, is_valid_errors]
    cases h : is_valid_cycles c with
    | nil => simp
    | cons a l => simp

end ClaimC3

section ClaimC7

variable {n : Nat} {adj : Fin n → Fin n → Bool}

/-- Number of not-yet-discovered vertices of a DFS state. -/
def undiscCard (st : DfsState n) : Nat :=
  (Finset.univ.filter (fun v => st.d v = 0)).card

lemma dfsNext_fold_none (visit : Fin n → DfsState n → Option (DfsState n)) :
    ∀ l : List (Fin n), l.foldl (dfsNext visit) none = none := by
  intro l
  induction l with
  | nil => rfl
  | cons w rest ih => exact ih

lemma dfsNext_fold_d (visit : Fin n → DfsState n → Option (DfsState n))
    (hvisit : ∀ (w : Fin n) (st st' : DfsState n), st.d w = 0 →
      visit w st = some st' → ∀ v, st.d v ≠ 0 → st'.d v = st.d v) :
    ∀ (l : List (Fin n)) (stA stB : DfsState n),
      l.foldl (dfsNext visit) (some stA) = some stB →
      ∀ v, stA.d v ≠ 0 → stB.d v = stA.d v := by
  intro l
  induction l with
  | nil =>
    intro stA stB hrun v hv
    simp only [List.foldl_nil, Option.some.injEq] at hrun
    rw [← hrun]
  | cons w rest ih =>
    intro stA stB hrun v hv
    rw [List.foldl_cons] at hrun
    by_cases hw : stA.d w = 0
    · have hstep : dfsNext visit (some stA) w = visit w stA := by
        simp [dfsNext, hw]
      rw [hstep] at hrun
      cases hv2 : visit w stA with
      | none => rw [hv2, dfsNext_fold_none] at hrun; exact absurd hrun (by simp)
      | some stM =>
        rw [hv2] at hrun
        have h1 : stM.d v = stA.d v := hvisit w stA stM hw hv2 v hv
        rw [ih stM stB hrun v (h1 ▸ hv), h1]
    · have hstep : dfsNext visit (some stA) w = some stA := by
        simp [dfsNext, hw]
      rw [hstep] at hrun
      exact ih stA stB hrun v hv

lemma dfsVisit_d :
    ∀ (fuel : Nat) (s : Fin n) (st st' : DfsState n), st.d s = 0 →
      dfsVisit adj fuel s st = some st' →
      (∀ v, st.d v ≠ 0 → st'.d v = st.d v) ∧ st'.d s ≠ 0 := by
  intro fuel
  induction fuel with
  | zero => intro s st st' _ hrun; exact absurd hrun (by simp [dfsVisit])
  | succ fuel ih =>
    intro s st st' hds hrun
    rw [dfsVisit] at hrun
    cases hfold : (outNeighbors adj s).foldl (dfsNext (dfsVisit adj fuel))
        (some ⟨st.time + 1, Function.update st.d s (st.time + 1), st.f⟩) with
    | none => rw [hfold] at hrun; exact absurd hrun (by simp)
    | some st2 =>
      rw [hfold] at hrun
      simp only [Option.some.injEq] at hrun
      subst hrun
      have hpres := dfsNext_fold_d (dfsVisit adj fuel)
        (fun w stx stx' hw hr => (ih w stx stx' hw hr).1) _ _ _ hfold
      constructor
      · intro v hv
        have hvs : v ≠ s := fun he => hv (by rw [he]; exact hds)
        have h1 : Function.update st.d s (st.time + 1) v = st.d v := by
          rw [Function.update_apply, if_neg hvs]
        have h3 : st2.d v = Function.update st.d s (st.time + 1) v :=
          hpres v (by
            change Function.update st.d s (st.time + 1) v ≠ 0
            rw [h1]
            exact hv)
        show st2.d v = st.d v
        rw [h3, h1]
      · have h1 : Function.update st.d s (st.time + 1) s = st.time + 1 := by
          rw [Function.update_apply, if_pos rfl]
        have h3 : st2.d s = Function.update st.d s (st.time + 1) s :=
          hpres s (by
            change Function.update st.d s (st.time + 1) s ≠ 0
            rw [h1]
            exact Nat.succ_ne_zero _)
        show st2.d s ≠ 0
        rw [h3, h1]
        exact Nat.succ_ne_zero _

lemma undiscCard_le_of_d_pres {a b : DfsState n}
    (h : ∀ v, a.d v ≠ 0 → b.d v = a.d v) : undiscCard b ≤ undiscCard a := by
  apply Finset.card_le_card
  intro v hv
  rw [Finset.mem_filter] at hv ⊢
  refine ⟨Finset.mem_univ v, ?_⟩
  by_contra hav
  exact hav (by rw [← h v hav]; exact hv.2)

lemma dfsVisit_total :
    ∀ (fuel : Nat) (s : Fin n) (st : DfsState n), st.d s = 0 →
      undiscCard st ≤ fuel → ∃ st', dfsVisit adj fuel s st = some st' := by
  intro fuel
  induction fuel with
  | zero =>
    intro s st hds hcard
    exfalso
    have : 0 < undiscCard st :=
      Finset.card_pos.mpr ⟨s, Finset.mem_filter.mpr ⟨Finset.mem_univ s, hds⟩⟩
    omega
  | succ fuel ih =>
    intro s st hds hcard
    have hcard1 : undiscCard
        (⟨st.time + 1, Function.update st.d s (st.time + 1), st.f⟩ : DfsState n) ≤
        fuel := by
      have he : (Finset.univ.filter
          (fun v => Function.update st.d s (st.time + 1) v = 0)) =
          (Finset.univ.filter (fun v => st.d v = 0)).erase s := by
        ext v
        rw [Finset.mem_filter, Finset.mem_erase, Finset.mem_filter,
          Function.update_apply]
        by_cases hv : v = s
        · simp [hv]
        · simp [hv]
      have hmem : s ∈ Finset.univ.filter (fun v => st.d v = 0) :=
        Finset.mem_filter.mpr ⟨Finset.mem_univ s, hds⟩
      rw [undiscCard, he, Finset.card_erase_of_mem hmem]
      rw [undiscCard] at hcard
      omega
    have hfold : ∀ (l : List (Fin n)) (stA : DfsState n), undiscCard stA ≤ fuel →
        ∃ stB, l.foldl (dfsNext (dfsVisit adj fuel)) (some stA) = some stB ∧
          undiscCard stB ≤ undiscCard stA := by
      intro l
      induction l with
      | nil => intro stA hA; exact ⟨stA, rfl, le_rfl⟩
      | cons w rest ihl =>
        intro stA hA
        by_cases hw : stA.d w = 0
        · obtain ⟨stM, hM⟩ := ih w stA hw hA
          have hpres := (dfsVisit_d fuel w stA stM hw hM).1
          have hcardM : undiscCard stM ≤ undiscCard stA :=
            undiscCard_le_of_d_pres hpres
          obtain ⟨stB, hB, hcB⟩ := ihl stM (le_trans hcardM hA)
          refine ⟨stB, ?_, le_trans hcB hcardM⟩
          rw [List.foldl_cons]
          have hstep : dfsNext (dfsVisit adj fuel) (some stA) w =
              dfsVisit adj fuel w stA := by simp [dfsNext, hw]
          rw [hstep, hM]
          exact hB
        · obtain ⟨stB, hB, hcB⟩ := ihl stA hA
          refine ⟨stB, ?_, hcB⟩
          rw [List.foldl_cons]
          have hstep : dfsNext (dfsVisit adj fuel) (some stA) w = some stA := by
            simp [dfsNext, hw]
          rw [hstep]
          exact hB
    obtain ⟨st2, h2, _⟩ := hfold (outNeighbors adj s)
      ⟨st.time + 1, Function.update st.d s (st.time + 1), st.f⟩ hcard1
    refine ⟨⟨st2.time + 1, st2.d, Function.update st2.f s (st2.time + 1)⟩, ?_⟩
    rw [dfsVisit, h2]

/-- Well-formedness of a DFS state: stamps never exceed the clock, set finish
times are pairwise distinct, and a set finish time implies discovery. -/
def InvD (st : DfsState n) : Prop :=
  (∀ v, st.d v ≤ st.time) ∧ (∀ v, st.f v ≤ st.time) ∧
    (∀ v w, v ≠ w → st.f v ≠ 0 → st.f v ≠ st.f w) ∧
    (∀ v, st.f v ≠ 0 → st.d v ≠ 0)

lemma dfsVisit_spec :
    ∀ (fuel : Nat) (s : Fin n) (st st' : DfsState n) (S : Finset (Fin n)),
      dfsVisit adj fuel s st = some st' → st.d s = 0 → InvD st →
      (∀ v ∈ S, st.d v ≠ 0) →
      (∀ v, v ∉ S → v ≠ s → st.d v ≠ 0 → st.f v ≠ 0) →
      (∀ v, st.f v ≠ 0 → st'.f v = st.f v) ∧ st.time ≤ st'.time ∧
        InvD st' ∧ (∀ v, v ∉ S → st'.d v ≠ 0 → st'.f v ≠ 0) := by
  intro fuel
  induction fuel with
  | zero => intro s st st' S hrun; exact absurd hrun (by simp [dfsVisit])
  | succ fuel ih =>
    intro s st st' S hrun hds hinv hdisc hexc
    rw [dfsVisit] at hrun
    cases hfold : (outNeighbors adj s).foldl (dfsNext (dfsVisit adj fuel))
        (some ⟨st.time + 1, Function.update st.d s (st.time + 1), st.f⟩) with
    | none => rw [hfold] at hrun; exact absurd hrun (by simp)
    | some st2 =>
      rw [hfold] at hrun
      simp only [Option.some.injEq] at hrun
      subst hrun
      set st1 : DfsState n :=
        ⟨st.time + 1, Function.update st.d s (st.time + 1), st.f⟩ with hst1
      have hinv1 : InvD st1 := by
        obtain ⟨hb1, hb2, hb3, hb4⟩ := hinv
        refine ⟨?_, ?_, hb3, ?_⟩
        · intro v
          show Function.update st.d s (st.time + 1) v ≤ st.time + 1
          rw [Function.update_apply]
          by_cases hv : v = s
          · simp [hv]
          · simp only [if_neg hv]
            exact le_trans (hb1 v) (Nat.le_succ _)
        · intro v
          exact le_trans (hb2 v) (Nat.le_succ _)
        · intro v hfv
          show Function.update st.d s (st.time + 1) v ≠ 0
          rw [Function.update_apply]
          by_cases hv : v = s
          · simp [hv]
          · simp only [if_neg hv]
            exact hb4 v hfv
      have hdisc1 : ∀ v ∈ insert s S, st1.d v ≠ 0 := by
        intro v hv
        show Function.update st.d s (st.time + 1) v ≠ 0
        rw [Function.update_apply]
        by_cases hvs : v = s
        · simp [hvs]
        · simp only [if_neg hvs]
          exact hdisc v (Finset.mem_of_mem_insert_of_ne hv hvs)
      have hexc1 : ∀ v, v ∉ insert s S → st1.d v ≠ 0 → st1.f v ≠ 0 := by
        intro v hv hdv
        have hvs : v ≠ s := fun he => hv (he ▸ Finset.mem_insert_self s S)
        have hvS : v ∉ S := fun he => hv (Finset.mem_insert_of_mem he)
        have hdv' : st.d v ≠ 0 := by
          have : Function.update st.d s (st.time + 1) v = st.d v := by
            rw [Function.update_apply, if_neg hvs]
          rw [show st1.d v = Function.update st.d s (st.time + 1) v from rfl,
            this] at hdv
          exact hdv
        exact hexc v hvS hvs hdv'
      have hfoldspec : ∀ (l : List (Fin n)) (stA stB : DfsState n),
          l.foldl (dfsNext (dfsVisit adj fuel)) (some stA) = some stB →
          InvD stA → (∀ v ∈ insert s S, stA.d v ≠ 0) →
          (∀ v, v ∉ insert s S → stA.d v ≠ 0 → stA.f v ≠ 0) →
          (∀ v, stA.f v ≠ 0 → stB.f v = stA.f v) ∧ stA.time ≤ stB.time ∧
            InvD stB ∧ (∀ v, v ∉ insert s S → stB.d v ≠ 0 → stB.f v ≠ 0) ∧
            (∀ v ∈ insert s S, stB.d v ≠ 0) := by
        intro l
        induction l with
        | nil =>
          intro stA stB hr hI hD hE
          simp only [List.foldl_nil, Option.some.injEq] at hr
          subst hr
          exact ⟨fun v _ => rfl, le_rfl, hI, hE, hD⟩
        | cons w rest ihl =>
          intro stA stB hr hI hD hE
          rw [List.foldl_cons] at hr
          by_cases hw : stA.d w = 0
          · have hstep : dfsNext (dfsVisit adj fuel) (some stA) w =
                dfsVisit adj fuel w stA := by simp [dfsNext, hw]
            rw [hstep] at hr
            cases hv2 : dfsVisit adj fuel w stA with
            | none => rw [hv2, dfsNext_fold_none] at hr; exact absurd hr (by simp)
            | some stM =>
              rw [hv2] at hr
              have hM := ih w stA stM (insert s S) hv2 hw hI hD
                (fun v hvS _ hvd => hE v hvS hvd)
              obtain ⟨hMf, hMt, hMI, hMexc⟩ := hM
              have hMd := (dfsVisit_d fuel w stA stM hw hv2).1
              have hMD : ∀ v ∈ insert s S, stM.d v ≠ 0 := by
                intro v hv
                rw [hMd v (hD v hv)]
                exact hD v hv
              obtain ⟨hBf, hBt, hBI, hBexc, hBD⟩ := ihl stM stB hr hMI hMD hMexc
              refine ⟨?_, le_trans hMt hBt, hBI, hBexc, hBD⟩
              intro v hfv
              rw [hBf v (by rw [hMf v hfv]; exact hfv), hMf v hfv]
          · have hstep : dfsNext (dfsVisit adj fuel) (some stA) w = some stA := by
              simp [dfsNext, hw]
            rw [hstep] at hr
            exact ihl stA stB hr hI hD hE
      obtain ⟨hBf, hBt, hBI, hBexc, hBD⟩ :=
        hfoldspec (outNeighbors adj s) st1 st2 hfold hinv1 hdisc1 hexc1
      have hfs0 : st.f s = 0 := by
        by_contra hfs
        exact (hinv.2.2.2 s hfs) hds
      have htime1 : st.time + 1 ≤ st2.time := hBt
      refine ⟨?_, ?_, ?_, ?_⟩
      · intro v hfv
        have hvs : v ≠ s := fun he => (he ▸ hfv) hfs0
        have h1 : st1.f v = st.f v := rfl
        show Function.update st2.f s (st2.time + 1) v = st.f v
        rw [Function.update_apply, if_neg hvs]
        rw [hBf v (by rw [h1]; exact hfv)]
      · show st.time ≤ st2.time + 1
        omega
      · obtain ⟨hc1, hc2, hc3, hc4⟩ := hBI
        refine ⟨?_, ?_, ?_, ?_⟩
        · intro v
          show st2.d v ≤ st2.time + 1
          exact le_trans (hc1 v) (Nat.le_succ _)
        · intro v
          show Function.update st2.f s (st2.time + 1) v ≤ st2.time + 1
          rw [Function.update_apply]
          by_cases hv : v = s
          · simp [hv]
          · simp only [if_neg hv]
            exact le_trans (hc2 v) (Nat.le_succ _)
        · intro v w hvw hfv
          show Function.update st2.f s (st2.time + 1) v ≠
            Function.update st2.f s (st2.time + 1) w
          rw [Function.update_apply, Function.update_apply]
          by_cases hv : v = s
          · rw [if_pos hv,
              if_neg (show w ≠ s from fun hws => hvw (hv.trans hws.symm))]
            have := hc2 w
            omega
          · rw [if_neg hv]
            by_cases hw2 : w = s
            · rw [if_pos hw2]
              have := hc2 v
              omega
            · rw [if_neg hw2]
              apply hc3 v w hvw
              have hfv' : Function.update st2.f s (st2.time + 1) v ≠ 0 := hfv
              rwa [Function.update_apply, if_neg hv] at hfv'
        · intro v hfv
          show st2.d v ≠ 0
          by_cases hv : v = s
          · subst hv
            exact hBD v (Finset.mem_insert_self v S)
          · apply hc4 v
            have hfv' : Function.update st2.f s (st2.time + 1) v ≠ 0 := hfv
            rwa [Function.update_apply, if_neg hv] at hfv'
      · intro v hvS hdv
        show Function.update st2.f s (st2.time + 1) v ≠ 0
        rw [Function.update_apply]
        by_cases hv : v = s
        · simp [hv]
        · rw [if_neg hv]
          exact hBexc v (by simp [hv, hvS]) hdv

lemma dfsAll_spec (fuel : Nat) (hfuel : n ≤ fuel) :
    ∃ st : DfsState n, dfsAll adj fuel = some st ∧ InvD st ∧
      (∀ v, st.d v ≠ 0) ∧ (∀ v, st.f v ≠ 0) ∧
      (∀ v w, v ≠ w → st.f v ≠ st.f w) := by
  have hucard : ∀ st : DfsState n, undiscCard st ≤ fuel := by
    intro st
    refine le_trans ?_ hfuel
    rw [undiscCard]
    calc (Finset.univ.filter (fun v => st.d v = 0)).card
        ≤ Finset.univ.card := Finset.card_filter_le _ _
      _ = n := by rw [Finset.card_univ, Fintype.card_fin]
  have hfold : ∀ (l : List (Fin n)) (stA : DfsState n),
      InvD stA → (∀ v, stA.d v ≠ 0 → stA.f v ≠ 0) →
      ∃ stB, l.foldl (dfsNext (dfsVisit adj fuel)) (some stA) = some stB ∧
        InvD stB ∧ (∀ v, stA.d v ≠ 0 → stB.d v = stA.d v) ∧
        (∀ v, stB.d v ≠ 0 → stB.f v ≠ 0) ∧ (∀ v ∈ l, stB.d v ≠ 0) := by
    intro l
    induction l with
    | nil =>
      intro stA hI hH
      exact ⟨stA, rfl, hI, fun v _ => rfl, hH, by simp⟩
    | cons w rest ihl =>
      intro stA hI hH
      by_cases hw : stA.d w = 0
      · obtain ⟨stM, hM⟩ := dfsVisit_total fuel w stA hw (hucard stA)
        obtain ⟨hMd, hMds⟩ := dfsVisit_d fuel w stA stM hw hM
        obtain ⟨_, _, hMI, hMH⟩ := dfsVisit_spec fuel w stA stM ∅ hM hw hI
          (by simp) (fun v _ _ hdv => hH v hdv)
        obtain ⟨stB, hB, hBI, hBd, hBH, hBl⟩ :=
          ihl stM hMI (fun v hv => hMH v (by simp) hv)
        refine ⟨stB, ?_, hBI, ?_, hBH, ?_⟩
        · rw [List.foldl_cons,
            show dfsNext (dfsVisit adj fuel) (some stA) w =
              dfsVisit adj fuel w stA by simp [dfsNext, hw], hM]
          exact hB
        · intro v hv
          rw [hBd v (by rw [hMd v hv]; exact hv), hMd v hv]
        · intro v hv
          rcases List.mem_cons.mp hv with rfl | hv
          · rw [hBd _ hMds]
            exact hMds
          · exact hBl v hv
      · obtain ⟨stB, hB, hBI, hBd, hBH, hBl⟩ := ihl stA hI hH
        refine ⟨stB, ?_, hBI, hBd, hBH, ?_⟩
        · rw [List.foldl_cons,
            show dfsNext (dfsVisit adj fuel) (some stA) w = some stA by
              simp [dfsNext, hw]]
          exact hB
        · intro v hv
          rcases List.mem_cons.mp hv with rfl | hv
          · rw [hBd v hw]
            exact hw
          · exact hBl v hv
  have hIinit : InvD (⟨0, fun _ => 0, fun _ => 0⟩ : DfsState n) :=
    ⟨fun _ => le_rfl, fun _ => le_rfl, fun _ _ _ hf => absurd rfl hf,
      fun _ hf => absurd rfl hf⟩
  obtain ⟨st, hst, hI, _, hH, hl⟩ := hfold (List.finRange n)
    ⟨0, fun _ => 0, fun _ => 0⟩ hIinit (fun v hv => absurd rfl hv)
  have hdall : ∀ v, st.d v ≠ 0 := fun v => hl v (List.mem_finRange v)
  have hfall : ∀ v, st.f v ≠ 0 := fun v => hH v (hdall v)
  exact ⟨st, hst, hI, hdall, hfall,
    fun v w hvw => hI.2.2.1 v w hvw (hfall v)⟩

lemma undirStep_symm {a b : Fin n} (h : Step (undirAdj adj) a b) :
    Step (undirAdj adj) b a := by
  have h' : (adj a b || adj b a) = true := h
  show (adj b a || adj a b) = true
  rw [Bool.or_comm]
  exact h'

lemma undirReaches_symm {u v : Fin n} (h : Reaches (undirAdj adj) u v) :
    Reaches (undirAdj adj) v u := by
  induction h with
  | refl => exact Relation.ReflTransGen.refl
  | tail _ hbc ih =>
    exact Relation.ReflTransGen.trans
      (Relation.ReflTransGen.single (undirStep_symm hbc)) ih

lemma mem_componentOf {v w : Fin n} :
    w ∈ componentOf adj v ↔ Reaches (undirAdj adj) v w := by
  rw [componentOf, List.mem_filter]
  constructor
  · rintro ⟨-, h⟩
    exact hasPathB_iff.mp h
  · intro h
    exact ⟨List.mem_finRange w, hasPathB_iff.mpr h⟩

lemma componentOf_congr {u v : Fin n} (h : Reaches (undirAdj adj) u v) :
    componentOf adj u = componentOf adj v := by
  apply List.filter_congr
  intro w _
  have hiff : hasPathB (undirAdj adj) u w = true ↔
      hasPathB (undirAdj adj) v w = true := by
    rw [hasPathB_iff, hasPathB_iff]
    constructor
    · intro huw
      exact Relation.ReflTransGen.trans (undirReaches_symm h) huw
    · intro hvw
      exact Relation.ReflTransGen.trans h hvw
  cases h1 : hasPathB (undirAdj adj) u w
  · cases h2 : hasPathB (undirAdj adj) v w
    · rfl
    · exact absurd (hiff.mpr h2) (by rw [h1]; simp)
  · rw [hiff.mp h1]

lemma componentOf_nodup (v : Fin n) : (componentOf adj v).Nodup :=
  (List.filter_sublist _).nodup (List.nodup_finRange n)

lemma mem_wccList {comp : List (Fin n)} :
    comp ∈ wccList adj ↔
      ∃ v, (componentOf adj v).head? = some v ∧ comp = componentOf adj v := by
  rw [wccList, List.mem_filterMap]
  constructor
  · rintro ⟨v, -, hv⟩
    by_cases hc : (componentOf adj v).head? = some v
    · rw [if_pos hc] at hv
      exact ⟨v, hc, (Option.some.inj hv).symm⟩
    · rw [if_neg hc] at hv
      exact absurd hv (by simp)
  · rintro ⟨v, hc, rfl⟩
    exact ⟨v, List.mem_finRange v, by rw [if_pos hc]⟩

lemma componentOf_rep_mem (v : Fin n) : v ∈ componentOf adj v :=
  mem_componentOf.mpr Relation.ReflTransGen.refl

lemma exists_wcc_containing (v : Fin n) :
    ∃ comp ∈ wccList adj, v ∈ comp := by
  have hne : componentOf adj v ≠ [] := by
    intro h
    exact absurd (h ▸ componentOf_rep_mem v) (List.not_mem_nil v)
  set m := (componentOf adj v).head hne with hm
  have hmmem : m ∈ componentOf adj v := List.head_mem hne
  have hreach : Reaches (undirAdj adj) v m := mem_componentOf.mp hmmem
  have hceq : componentOf adj m = componentOf adj v :=
    (componentOf_congr hreach).symm
  refine ⟨componentOf adj m, mem_wccList.mpr ⟨m, ?_, rfl⟩, ?_⟩
  · rw [hceq, List.head?_eq_head hne]
  · rw [hceq]
    exact componentOf_rep_mem v

lemma vmin_cons (x : Fin n) (l : List (Fin n)) :
    vmin (x :: l) = Nat.min x.val (vmin l) := rfl

lemma vmin_spec :
    ∀ l : List (Fin n), l ≠ [] →
      (∃ w ∈ l, vmin l = w.val) ∧ (∀ w ∈ l, vmin l ≤ w.val) := by
  intro l
  induction l with
  | nil => intro h; exact absurd rfl h
  | cons x rest ih =>
    intro _
    cases rest with
    | nil =>
      have hx : vmin [x] = x.val := by
        rw [show ([x] : List (Fin n)) = x :: [] from rfl, vmin_cons]
        have : vmin ([] : List (Fin n)) = n := rfl
        rw [this]
        exact Nat.min_eq_left (le_of_lt x.isLt)
      exact ⟨⟨x, by simp, hx⟩, by
        intro w hw
        rw [List.mem_singleton] at hw
        subst hw
        rw [hx]⟩
    | cons y rest2 =>
      obtain ⟨⟨w0, hw0, hv0⟩, hall⟩ := ih (by simp)
      rw [vmin_cons]
      by_cases hcmp : x.val ≤ vmin (y :: rest2)
      · have hmeq : Nat.min x.val (vmin (y :: rest2)) = x.val :=
          Nat.min_eq_left hcmp
        rw [hmeq]
        refine ⟨⟨x, by simp, rfl⟩, ?_⟩
        intro w hw
        rcases List.mem_cons.mp hw with rfl | hw
        · exact le_rfl
        · exact le_trans hcmp (hall w hw)
      · have hmeq : Nat.min x.val (vmin (y :: rest2)) = vmin (y :: rest2) :=
          Nat.min_eq_right (le_of_lt (Nat.lt_of_not_le hcmp))
        rw [hmeq]
        refine ⟨⟨w0, List.mem_cons_of_mem _ hw0, hv0⟩, ?_⟩
        intro w hw
        rcases List.mem_cons.mp hw with rfl | hw
        · exact le_of_lt (Nat.lt_of_not_le hcmp)
        · exact hall w hw

lemma vmin_perm {l1 l2 : List (Fin n)} (h : l1.Perm l2) : vmin l1 = vmin l2 := by
  cases l1 with
  | nil =>
    have he : l2 = [] := List.Perm.eq_nil h.symm
    exact he ▸ rfl
  | cons x rest =>
    have h1 : (x :: rest) ≠ [] := by simp
    have h2 : l2 ≠ [] := by
      intro he
      subst he
      exact absurd h.length_eq (by simp)
    obtain ⟨⟨w1, hw1, he1⟩, hall1⟩ := vmin_spec (x :: rest) h1
    obtain ⟨⟨w2, hw2, he2⟩, hall2⟩ := vmin_spec l2 h2
    have hle1 : vmin (x :: rest) ≤ vmin l2 := by
      rw [he2]
      exact hall1 w2 (h.mem_iff.mpr hw2)
    have hle2 : vmin l2 ≤ vmin (x :: rest) := by
      rw [he1]
      exact hall2 w1 (h.mem_iff.mp hw1)
    omega

lemma headV_eq_vmin {comp : List (Fin n)} (hmem : comp ∈ wccList adj) :
    headV comp = vmin comp := by
  obtain ⟨v, hhead, rfl⟩ := mem_wccList.mp hmem
  have hne : componentOf adj v ≠ [] := by
    intro h
    rw [h] at hhead
    exact absurd hhead (by simp)
  have hsorted : (componentOf adj v).Pairwise (· < ·) :=
    List.Pairwise.sublist (List.filter_sublist _) (List.pairwise_lt_finRange n)
  have hheadmin : ∀ w ∈ componentOf adj v,
      ((componentOf adj v).head hne).val ≤ w.val := by
    obtain ⟨a, rest, hc⟩ := List.exists_cons_of_ne_nil hne
    have h1 : (componentOf adj v).head? = some ((componentOf adj v).head hne) :=
      List.head?_eq_head hne
    have h2 : (componentOf adj v).head? = some a := by
      rw [hc, List.head?_cons]
    have hha : (componentOf adj v).head hne = a :=
      Option.some.inj (h1.symm.trans h2)
    intro w hw
    rw [hha]
    rw [hc] at hw
    have hsorted' : (a :: rest).Pairwise (· < ·) := hc ▸ hsorted
    rcases List.mem_cons.mp hw with rfl | hw
    · exact le_rfl
    · exact le_of_lt ((List.pairwise_cons.mp hsorted').1 w hw)
  obtain ⟨⟨w0, hw0, he0⟩, hall0⟩ := vmin_spec (componentOf adj v) hne
  have h1 : headV (componentOf adj v) = ((componentOf adj v).head hne).val := by
    rw [headV, List.head?_eq_head hne]
  rw [h1]
  have hle1 : ((componentOf adj v).head hne).val ≤ vmin (componentOf adj v) := by
    rw [he0]
    exact hheadmin w0 hw0
  have hle2 : vmin (componentOf adj v) ≤ ((componentOf adj v).head hne).val :=
    hall0 _ (List.head_mem hne)
  omega

lemma order_index_strict {st : DfsState n}
    (hdist : ∀ v w : Fin n, v ≠ w → st.f v ≠ st.f w)
    {order : List (Fin n)} (hperm : order.Perm (List.finRange n))
    (hsort : order.Pairwise (fun a b => st.f b ≤ st.f a))
    {a b : Fin n} (hab : a ≠ b)
    (hidx : List.indexOf a order ≤ List.indexOf b order) : st.f b < st.f a := by
  have hain : a ∈ order := hperm.mem_iff.mpr (List.mem_finRange a)
  have hbin : b ∈ order := hperm.mem_iff.mpr (List.mem_finRange b)
  have ha : List.indexOf a order < order.length := List.indexOf_lt_length.mpr hain
  have hb : List.indexOf b order < order.length := List.indexOf_lt_length.mpr hbin
  have hne : List.indexOf a order ≠ List.indexOf b order :=
    fun he => hab ((List.indexOf_inj hain hbin).mp he)
  have hlt : List.indexOf a order < List.indexOf b order :=
    lt_of_le_of_ne hidx hne
  have hle := List.pairwise_iff_getElem.mp hsort
    (List.indexOf a order) (List.indexOf b order) ha hb hlt
  rw [List.getElem_indexOf ha, List.getElem_indexOf hb] at hle
  exact lt_of_le_of_ne hle (hdist b a (Ne.symm hab))

lemma topoOrder_eq (fuel : Nat) (st : DfsState n)
    (hst : dfsAll adj fuel = some st) :
    topoOrder adj fuel =
      some (List.insertionSort (fun a b => st.f b ≤ st.f a) (List.finRange n)) := by
  rw [topoOrder, hst, Option.map_some']

lemma topoOrder_sorted (st : DfsState n) :
    (List.insertionSort (fun a b => st.f b ≤ st.f a)
        (List.finRange n)).Pairwise (fun a b => st.f b ≤ st.f a) := by
  haveI : IsTotal (Fin n) (fun a b => st.f b ≤ st.f a) :=
    ⟨fun a b => le_total (st.f b) (st.f a)⟩
  haveI : IsTrans (Fin n) (fun a b => st.f b ≤ st.f a) :=
    ⟨fun _ _ _ hab hbc => le_trans hbc hab⟩
  exact List.sorted_insertionSort _ _

lemma comp_sorted (st : DfsState n)
    (hdist : ∀ v w : Fin n, v ≠ w → st.f v ≠ st.f w)
    {order : List (Fin n)} (hperm : order.Perm (List.finRange n))
    (hsort : order.Pairwise (fun a b => st.f b ≤ st.f a))
    {comp : List (Fin n)} (hnd : comp.Nodup) :
    (List.insertionSort (fun a b => List.indexOf a order ≤ List.indexOf b order)
      comp).Pairwise (fun a b => st.f b < st.f a) := by
  haveI : IsTotal (Fin n) (fun a b => List.indexOf a order ≤ List.indexOf b order) :=
    ⟨fun a b => le_total _ _⟩
  haveI : IsTrans (Fin n) (fun a b => List.indexOf a order ≤ List.indexOf b order) :=
    ⟨fun _ _ _ hab hbc => le_trans hab hbc⟩
  have hs := List.sorted_insertionSort
    (fun a b => List.indexOf a order ≤ List.indexOf b order) comp
  have hnd' : (List.insertionSort
      (fun a b => List.indexOf a order ≤ List.indexOf b order) comp).Nodup :=
    (List.perm_insertionSort _ _).nodup_iff.mpr hnd
  have hcomb := List.Pairwise.and hs hnd'
  exact hcomb.imp (fun hp =>
    order_index_strict hdist hperm hsort hp.2 hp.1)

lemma sortComps_perm (ord : SortOrd) (comps : List (List (Fin n))) :
    (sortComps ord comps).Perm comps := by
  cases ord with
  | nosort => exact List.Perm.refl comps
  | descending => exact List.perm_insertionSort _ comps
  | ascending => exact List.perm_insertionSort _ comps

lemma sortComps_desc_sorted (comps : List (List (Fin n))) :
    (sortComps SortOrd.descending comps).Pairwise
      (fun c1 c2 => c2.length < c1.length ∨
        (c1.length = c2.length ∧ headV c1 ≤ headV c2)) := by
  haveI : IsTotal (List (Fin n)) (fun c1 c2 => c2.length < c1.length ∨
      (c1.length = c2.length ∧ headV c1 ≤ headV c2)) := by
    refine ⟨fun c1 c2 => ?_⟩
    rcases Nat.lt_trichotomy c2.length c1.length with h | h | h
    · exact Or.inl (Or.inl h)
    · rcases le_total (headV c1) (headV c2) with hh | hh
      · exact Or.inl (Or.inr ⟨h.symm, hh⟩)
      · exact Or.inr (Or.inr ⟨h, hh⟩)
    · exact Or.inr (Or.inl h)
  haveI : IsTrans (List (Fin n)) (fun c1 c2 => c2.length < c1.length ∨
      (c1.length = c2.length ∧ headV c1 ≤ headV c2)) := by
    refine ⟨fun c1 c2 c3 h12 h23 => ?_⟩
    rcases h12 with h12 | ⟨he12, hh12⟩
    · rcases h23 with h23 | ⟨he23, hh23⟩
      · exact Or.inl (by omega)
      · exact Or.inl (by omega)
    · rcases h23 with h23 | ⟨he23, hh23⟩
      · exact Or.inl (by omega)
      · exact Or.inr ⟨by omega, le_trans hh12 hh23⟩
  exact List.sorted_insertionSort _ comps

lemma sortComps_asc_sorted (comps : List (List (Fin n))) :
    (sortComps SortOrd.ascending comps).Pairwise
      (fun c1 c2 => c1.length < c2.length ∨
        (c1.length = c2.length ∧ headV c1 ≤ headV c2)) := by
  haveI : IsTotal (List (Fin n)) (fun c1 c2 => c1.length < c2.length ∨
      (c1.length = c2.length ∧ headV c1 ≤ headV c2)) := by
    refine ⟨fun c1 c2 => ?_⟩
    rcases Nat.lt_trichotomy c1.length c2.length with h | h | h
    · exact Or.inl (Or.inl h)
    · rcases le_total (headV c1) (headV c2) with hh | hh
      · exact Or.inl (Or.inr ⟨h, hh⟩)
      · exact Or.inr (Or.inr ⟨h.symm, hh⟩)
    · exact Or.inr (Or.inl h)
  haveI : IsTrans (List (Fin n)) (fun c1 c2 => c1.length < c2.length ∨
      (c1.length = c2.length ∧ headV c1 ≤ headV c2)) := by
    refine ⟨fun c1 c2 c3 h12 h23 => ?_⟩
    rcases h12 with h12 | ⟨he12, hh12⟩
    · rcases h23 with h23 | ⟨he23, hh23⟩
      · exact Or.inl (by omega)
      · exact Or.inl (by omega)
    · rcases h23 with h23 | ⟨he23, hh23⟩
      · exact Or.inl (by omega)
      · exact Or.inr ⟨by omega, le_trans hh12 hh23⟩
  exact List.sorted_insertionSort _ comps

lemma mem_wccList_nodup {comp : List (Fin n)} (h : comp ∈ wccList adj) :
    comp.Nodup := by
  obtain ⟨v, _, rfl⟩ := mem_wccList.mp h
  exact componentOf_nodup v

end ClaimC7

section ClaimC7Main

/-- C7: for every directed graph and fuel at least the vertex count,
`topological_sort` returns the weakly connected components (each returned list
is, as a set, the weak component of each of its members, and every vertex is
covered), each internally ordered by strictly descending DFS finish time; with
`ascending`/`descending` the components are sorted by size in the requested
direction, with ties between equal-size components broken by the smallest
vertex id CONTAINED in the component (the pre-sort head of the component
list), NOT by the first vertex of the component's internal topological order
as the claim states. -/
theorem claim_C7_amended {n : Nat} (adj : Fin n → Fin n → Bool) (ord : SortOrd)
    (fuel : Nat) (hfuel : n ≤ fuel) :
    ∃ (st : DfsState n) (comps : List (List (Fin n))),
      dfsAll adj fuel = some st ∧
      topological_sort adj ord fuel = some comps ∧
      (∀ comp ∈ comps, ∀ v ∈ comp, comp.Perm (componentOf adj v)) ∧
      (∀ comp ∈ comps, comp.Pairwise (fun a b => st.f b < st.f a)) ∧
      (∀ v : Fin n, ∃ comp ∈ comps, v ∈ comp) ∧
      (ord = SortOrd.descending →
        comps.Pairwise (fun c1 c2 => c2.length < c1.length ∨
          (c1.length = c2.length ∧ vmin c1 ≤ vmin c2))) ∧
      (ord = SortOrd.ascending →
        comps.Pairwise (fun c1 c2 => c1.length < c2.length ∨
          (c1.length = c2.length ∧ vmin c1 ≤ vmin c2))) := by
  obtain ⟨st, hst, hI, hd, hf, hdist⟩ := @dfsAll_spec n adj fuel hfuel
  have hoperm : (List.insertionSort (fun a b => st.f b ≤ st.f a)
      (List.finRange n)).Perm (List.finRange n) := List.perm_insertionSort _ _
  have hosort := topoOrder_sorted st
  refine ⟨st, (sortComps ord (wccList adj)).map (fun comp =>
      List.insertionSort (fun a b =>
        List.indexOf a (List.insertionSort (fun a b => st.f b ≤ st.f a)
          (List.finRange n)) ≤
        List.indexOf b (List.insertionSort (fun a b => st.f b ≤ st.f a)
          (List.finRange n))) comp),
    hst, ?_, ?_, ?_, ?_, ?_, ?_⟩
  · simp only [topological_sort, topoOrder_eq fuel st hst, Option.map_some']
  · intro comp hcomp v hv
    obtain ⟨c0, hc0, hgc0⟩ := List.mem_map.mp hcomp
    have hc0w : c0 ∈ wccList adj := (sortComps_perm ord _).mem_iff.mp hc0
    have hpc0 : comp.Perm c0 := by
      rw [← hgc0]
      exact List.perm_insertionSort _ _
    obtain ⟨v0, _, hc0eq⟩ := mem_wccList.mp hc0w
    have hvc0 : v ∈ c0 := hpc0.mem_iff.mp hv
    have hreach : Reaches (undirAdj adj) v0 v := by
      rw [hc0eq] at hvc0
      exact mem_componentOf.mp hvc0
    have : componentOf adj v0 = componentOf adj v := componentOf_congr hreach
    rw [← this, ← hc0eq]
    exact hpc0
  · intro comp hcomp
    obtain ⟨c0, hc0, hgc0⟩ := List.mem_map.mp hcomp
    have hc0w : c0 ∈ wccList adj := (sortComps_perm ord _).mem_iff.mp hc0
    have hnd : c0.Nodup := mem_wccList_nodup hc0w
    rw [← hgc0]
    exact comp_sorted st hdist hoperm hosort hnd
  · intro v
    obtain ⟨comp0, hcomp0, hvmem⟩ := @exists_wcc_containing n adj v
    have hcs : comp0 ∈ sortComps ord (wccList adj) :=
      (sortComps_perm ord _).mem_iff.mpr hcomp0
    refine ⟨_, List.mem_map_of_mem _ hcs, ?_⟩
    exact (List.perm_insertionSort _ _).mem_iff.mpr hvmem
  · rintro rfl
    rw [List.pairwise_map]
    refine (sortComps_desc_sorted (wccList adj)).imp_of_mem ?_
    intro c1 c2 h1 h2 hr
    have h1w : c1 ∈ wccList adj :=
      (sortComps_perm SortOrd.descending _).mem_iff.mp h1
    have h2w : c2 ∈ wccList adj :=
      (sortComps_perm SortOrd.descending _).mem_iff.mp h2
    have hl1 : (List.insertionSort (fun a b =>
        List.indexOf a (List.insertionSort (fun a b => st.f b ≤ st.f a)
          (List.finRange n)) ≤
        List.indexOf b (List.insertionSort (fun a b => st.f b ≤ st.f a)
          (List.finRange n))) c1).length = c1.length :=
      (List.perm_insertionSort _ _).length_eq
    have hl2 : (List.insertionSort (fun a b =>
        List.indexOf a (List.insertionSort (fun a b => st.f b ≤ st.f a)
          (List.finRange n)) ≤
        List.indexOf b (List.insertionSort (fun a b => st.f b ≤ st.f a)
          (List.finRange n))) c2).length = c2.length :=
      (List.perm_insertionSort _ _).length_eq
    have hv1 : vmin (List.insertionSort (fun a b =>
        List.indexOf a (List.insertionSort (fun a b => st.f b ≤ st.f a)
          (List.finRange n)) ≤
        List.indexOf b (List.insertionSort (fun a b => st.f b ≤ st.f a)
          (List.finRange n))) c1) = vmin c1 :=
      vmin_perm (List.perm_insertionSort _ _)
    have hv2 : vmin (List.insertionSort (fun a b =>
        List.indexOf a (List.insertionSort (fun a b => st.f b ≤ st.f a)
          (List.finRange n)) ≤
        List.indexOf b (List.insertionSort (fun a b => st.f b ≤ st.f a)
          (List.finRange n))) c2) = vmin c2 :=
      vmin_perm (List.perm_insertionSort _ _)
    rw [hl1, hl2, hv1, hv2]
    rcases hr with hr | ⟨he, hh⟩
    · exact Or.inl hr
    · refine Or.inr ⟨he, ?_⟩
      rw [← headV_eq_vmin h1w, ← headV_eq_vmin h2w]
      exact hh
  · rintro rfl
    rw [List.pairwise_map]
    refine (sortComps_asc_sorted (wccList adj)).imp_of_mem ?_
    intro c1 c2 h1 h2 hr
    have h1w : c1 ∈ wccList adj :=
      (sortComps_perm SortOrd.ascending _).mem_iff.mp h1
    have h2w : c2 ∈ wccList adj :=
      (sortComps_perm SortOrd.ascending _).mem_iff.mp h2
    have hl1 : (List.insertionSort (fun a b =>
        List.indexOf a (List.insertionSort (fun a b => st.f b ≤ st.f a)
          (List.finRange n)) ≤
        List.indexOf b (List.insertionSort (fun a b => st.f b ≤ st.f a)
          (List.finRange n))) c1).length = c1.length :=
      (List.perm_insertionSort _ _).length_eq
    have hl2 : (List.insertionSort (fun a b =>
        List.indexOf a (List.insertionSort (fun a b => st.f b ≤ st.f a)
          (List.finRange n)) ≤
        List.indexOf b (List.insertionSort (fun a b => st.f b ≤ st.f a)
          (List.finRange n))) c2).length = c2.length :=
      (List.perm_insertionSort _ _).length_eq
    have hv1 : vmin (List.insertionSort (fun a b =>
        List.indexOf a (List.insertionSort (fun a b => st.f b ≤ st.f a)
          (List.finRange n)) ≤
        List.indexOf b (List.insertionSort (fun a b => st.f b ≤ st.f a)
          (List.finRange n))) c1) = vmin c1 :=
      vmin_perm (List.perm_insertionSort _ _)
    have hv2 : vmin (List.insertionSort (fun a b =>
        List.indexOf a (List.insertionSort (fun a b => st.f b ≤ st.f a)
          (List.finRange n)) ≤
        List.indexOf b (List.insertionSort (fun a b => st.f b ≤ st.f a)
          (List.finRange n))) c2) = vmin c2 :=
      vmin_perm (List.perm_insertionSort _ _)
    rw [hl1, hl2, hv1, hv2]
    rcases hr with hr | ⟨he, hh⟩
    · exact Or.inl hr
    · refine Or.inr ⟨he, ?_⟩
      rw [← headV_eq_vmin h1w, ← headV_eq_vmin h2w]
      exact hh

/-- C7 counterexample: on the 4-vertex graph with edges 3→0 and 1→2 the two
weak components both have size 2, and `topological_sort` with
`sort="descending"` returns the component internally ordered as `[3, 0]`
FIRST and `[1, 2]` second, although the internal topological order of the
second component begins with the smaller vertex id (1 < 3): the tie-break is
the smallest id contained in the component, not the first vertex of the
internal topological order. -/
theorem claim_C7_cex :
    topological_sort adjC7 SortOrd.descending 10 =
      some ([[3, 0], [1, 2]] : List (List (Fin 4))) ∧
    ([[3, 0], [1, 2]] : List (List (Fin 4))).map List.length = [2, 2] ∧
    ([[3, 0], [1, 2]] : List (List (Fin 4))).map headV = [3, 1] ∧
    (1 : Nat) < 3 := by decide

/-- Witness: the amended C7 theorem applied to the concrete 4-vertex graph
with `sort="descending"` and fuel 10. -/
theorem claim_C7_witness :
    (4 : Nat) ≤ 10 ∧
    ∃ (st : DfsState 4) (comps : List (List (Fin 4))),
      dfsAll adjC7 10 = some st ∧
      topological_sort adjC7 SortOrd.descending 10 = some comps ∧
      (∀ comp ∈ comps, ∀ v ∈ comp, comp.Perm (componentOf adjC7 v)) ∧
      (∀ comp ∈ comps, comp.Pairwise (fun a b => st.f b < st.f a)) ∧
      (∀ v : Fin 4, ∃ comp ∈ comps, v ∈ comp) ∧
      (SortOrd.descending = SortOrd.descending →
        comps.Pairwise (fun c1 c2 => c2.length < c1.length ∨
          (c1.length = c2.length ∧ vmin c1 ≤ vmin c2))) ∧
      (SortOrd.descending = SortOrd.ascending →
        comps.Pairwise (fun c1 c2 => c1.length < c2.length ∨
          (c1.length = c2.length ∧ vmin c1 ≤ vmin c2))) :=
  ⟨by decide, claim_C7_amended adjC7 SortOrd.descending 10 (by decide)⟩

end ClaimC7Main

section ClaimC2C6

variable {c : Curriculum}

lemma courseAt_mem (i : Fin (numC c)) : courseAt c i ∈ c.courses :=
  List.get_mem c.courses i.val i.isLt

lemma courseAt_id_inj (hids : (c.courses.map Course.id).Nodup)
    {i j : Fin (numC c)} (h : (courseAt c i).id = (courseAt c j).id) : i = j := by
  have hinj := List.nodup_iff_injective_get.mp hids
  have hi : i.val < (c.courses.map Course.id).length := by
    rw [List.length_map]; exact i.isLt
  have hj : j.val < (c.courses.map Course.id).length := by
    rw [List.length_map]; exact j.isLt
  have hgi : (c.courses.map Course.id).get ⟨i.val, hi⟩ = (courseAt c i).id := by
    simp [courseAt]
  have hgj : (c.courses.map Course.id).get ⟨j.val, hj⟩ = (courseAt c j).id := by
    simp [courseAt]
  have hfin := @hinj ⟨i.val, hi⟩ ⟨j.val, hj⟩ (by rw [hgi, hgj, h])
  have hval : i.val = j.val :=
    congrArg (fun x : Fin ((c.courses.map Course.id).length) => x.val) hfin
  exact Fin.ext hval

lemma course_vertex_id (hids : (c.courses.map Course.id).Nodup)
    (u : Fin (numC c)) : course_vertex c (courseAt c u).id = some u := by
  cases hfind : course_vertex c (courseAt c u).id with
  | none =>
    rw [course_vertex, List.find?_eq_none] at hfind
    exact absurd (by simp : ((courseAt c u).id == (courseAt c u).id) = true)
      (hfind u (List.mem_finRange u))
  | some v =>
    have hpred := List.find?_some hfind
    have : (courseAt c v).id = (courseAt c u).id := by
      simpa using hpred
    have hvu : v = u := courseAt_id_inj hids this
    rw [hvu]

lemma lookupReq_mem {l : List (Nat × Req)} {k : Nat} {r : Req}
    (h : lookupReq l k = some r) : (k, r) ∈ l := by
  induction l with
  | nil => exact absurd h (by simp [lookupReq])
  | cons p rest ih =>
    rw [lookupReq] at h
    by_cases hk : p.1 = k
    · rw [if_pos hk] at h
      have hp2 : p.2 = r := Option.some.inj h
      have hpe : p = (k, r) := Prod.ext hk hp2
      rw [← hpe]
      exact List.mem_cons_self p rest
    · rw [if_neg hk] at h
      exact List.mem_cons_of_mem p (ih h)

lemma edge_of_lookup (hids : (c.courses.map Course.id).Nodup)
    {u v : Fin (numC c)} {r : Req}
    (h : lookupReq (courseAt c v).requisites (courseAt c u).id = some r) :
    curricAdj c u v = true := by
  have hmem : ((courseAt c u).id, r) ∈ (courseAt c v).requisites := lookupReq_mem h
  rw [curricAdj, List.any_eq_true]
  refine ⟨((courseAt c u).id, r), hmem, ?_⟩
  rw [course_vertex_id hids u]
  simp

lemma planNoBackReq_iff {ts : List (List (Fin (numC c)))} :
    planNoBackReq c ts = true ↔ ts.Pairwise (backOk c) := by
  induction ts with
  | nil => simp [planNoBackReq]
  | cons t rest ih =>
    rw [planNoBackReq, Bool.and_eq_true, ih, List.pairwise_cons]
    constructor
    · rintro ⟨hall, hpw⟩
      refine ⟨?_, hpw⟩
      intro later hlater c1 hc1 c2 hc2
      have h1 := List.all_eq_true.mp (List.all_eq_true.mp hall later hlater) c1 hc1
      have h2 := List.all_eq_true.mp h1 c2 hc2
      simpa using h2
    · rintro ⟨hok, hpw⟩
      refine ⟨?_, hpw⟩
      rw [List.all_eq_true]
      intro later hlater
      rw [List.all_eq_true]
      intro c1 hc1
      rw [List.all_eq_true]
      intro c2 hc2
      have := hok later hlater c1 hc1 c2 hc2
      simpa using this

lemma planNoSamePre_iff {ts : List (List (Fin (numC c)))} :
    planNoSamePre c ts = true ↔ ∀ t ∈ ts, samePreOk c t := by
  rw [planNoSamePre, List.all_eq_true]
  apply forall_congr'
  intro t
  apply imp_congr_right
  intro _
  rw [List.all_eq_true]
  constructor
  · intro hall u hu r hr
    have h1 := List.all_eq_true.mp (hall u hu) r hr
    rcases Bool.or_eq_true _ _ |>.mp h1 with h | h
    · exact Or.inl (by simpa using h)
    · exact Or.inr (by simpa using h)
  · intro hok u hu
    rw [List.all_eq_true]
    intro r hr
    rcases hok u hu r hr with h | h
    · subst h; simp
    · simp [h]

lemma planComplete_of_perm {ts : List (List (Fin (numC c)))}
    (hflat : ts.flatten.Perm (List.finRange (numC c))) :
    planComplete c ts = true := by
  rw [planComplete, List.all_eq_true]
  intro course hcourse
  obtain ⟨i, hi⟩ := List.mem_iff_get.mp hcourse
  have himem : (⟨i.val, by simpa [numC] using i.isLt⟩ : Fin (numC c)) ∈ ts.flatten :=
    hflat.mem_iff.mpr (List.mem_finRange _)
  obtain ⟨t, ht, hit⟩ := List.mem_flatten.mp himem
  rw [List.any_eq_true]
  refine ⟨t, ht, ?_⟩
  rw [List.any_eq_true]
  refine ⟨_, hit, ?_⟩
  have : courseAt c ⟨i.val, by simpa [numC] using i.isLt⟩ = course := by
    rw [courseAt, ← hi]
    exact rfl
  rw [this]
  simp

lemma planNoDup_of_perm (hids : (c.courses.map Course.id).Nodup)
    {ts : List (List (Fin (numC c)))}
    (hflat : ts.flatten.Perm (List.finRange (numC c))) :
    planNoDup c ts = true := by
  rw [planNoDup, decide_eq_true_eq]
  have hnd : ts.flatten.Nodup := hflat.nodup_iff.mpr (List.nodup_finRange _)
  exact List.Nodup.map_on
    (fun x _ y _ he => courseAt_id_inj hids he) hnd

lemma termCredits_append {a b : List (Fin (numC c))} :
    termCredits c (a ++ b) = termCredits c a + termCredits c b := by
  rw [termCredits, termCredits, termCredits, List.map_append, List.sum_append]

lemma termCredits_nil : termCredits c ([] : List (Fin (numC c))) = 0 := rfl

lemma termCredits_singleton (t : Fin (numC c)) :
    termCredits c [t] = (courseAt c t).creditHours := by
  rw [termCredits]
  simp

lemma binPropagate_id
    (hnsc : ∀ course ∈ c.courses, ∀ p ∈ course.requisites, p.2 ≠ Req.strictCo)
    (cid : Nat) :
    ∀ (fuel : Nat) (uc term : List (Fin (numC c))) (credits : Int) (i : Nat),
      binPropagate c cid fuel uc term credits i = (uc, term, credits) := by
  intro fuel
  induction fuel with
  | zero => intro uc term credits i; rfl
  | succ fuel ih =>
    intro uc term credits i
    rw [binPropagate]
    by_cases h : i < uc.length
    · rw [dif_pos h]
      have hany : (courseAt c (uc.get ⟨i, h⟩)).requisites.any
          (fun p => p.1 == cid && p.2 == Req.strictCo) = false := by
        rw [Bool.eq_false_iff]
        intro hcon
        obtain ⟨p, hp, hpv⟩ := List.any_eq_true.mp hcon
        rw [Bool.and_eq_true] at hpv
        exact hnsc _ (courseAt_mem _) p hp (by simpa using hpv.2)
      simp only [hany, Bool.false_eq_true, if_false]
      exact ih uc term credits (i + 1)
    · rw [dif_neg h]

lemma select_vertex_eq_some {tc UC : List (Fin (numC c))} {t : Fin (numC c)}
    (h : select_vertex c tc UC = some t) :
    t ∈ UC ∧
      (∀ s ∈ UC, s = t ∨ hasPathB (curricAdj c) s t = false) ∧
      (∀ r ∈ tc,
        lookupReq (courseAt c t).requisites (courseAt c r).id ≠ some Req.pre) := by
  rw [select_vertex] at h
  have hmem := List.mem_of_find?_eq_some h
  have hpred := List.find?_some h
  rw [Bool.and_eq_true] at hpred
  refine ⟨hmem, ?_, ?_⟩
  · intro s hs
    have := List.all_eq_true.mp hpred.1 s hs
    rcases Bool.or_eq_true _ _ |>.mp this with h1 | h1
    · exact Or.inl (by simpa using h1)
    · exact Or.inr (by simpa using h1)
  · intro r hr
    have := List.all_eq_true.mp hpred.2 r hr
    simpa using this

lemma binFillingGo_zero (M : Int) (UC : List (Fin (numC c)))
    (terms : List (List (Fin (numC c)))) (cur : List (Fin (numC c)))
    (credits : Int) :
    binFillingGo c M 0 UC terms cur credits =
      if UC.isEmpty then some (if cur.isEmpty then terms else terms ++ [cur])
      else none := rfl

lemma binFillingGo_succ (M : Int) (fuel : Nat) (UC : List (Fin (numC c)))
    (terms : List (List (Fin (numC c)))) (cur : List (Fin (numC c)))
    (credits : Int) :
    binFillingGo c M (fuel + 1) UC terms cur credits =
      if UC.isEmpty then some (if cur.isEmpty then terms else terms ++ [cur])
      else
        match select_vertex c cur UC with
        | some t =>
          if credits + (courseAt c t).creditHours ≤ M then
            match binPropagate c (courseAt c t).id ((UC.erase t).length + 1)
                (UC.erase t) (cur ++ [t]) (credits + (courseAt c t).creditHours) 0 with
            | (a, b, d) => binFillingGo c M fuel a terms b d
          else
            match binPropagate c (courseAt c t).id ((UC.erase t).length + 1)
                (UC.erase t) [t] ((courseAt c t).creditHours) 0 with
            | (a, b, d) => binFillingGo c M fuel a (terms ++ [cur]) b d
        | none =>
          binFillingGo c M fuel UC (if cur.isEmpty then terms else terms ++ [cur])
            [] 0 := rfl

lemma binFillingGo_succ_some
    (hnsc : ∀ course ∈ c.courses, ∀ p ∈ course.requisites, p.2 ≠ Req.strictCo)
    (M : Int) (fuel : Nat) {UC : List (Fin (numC c))}
    (terms : List (List (Fin (numC c)))) {cur : List (Fin (numC c))}
    (credits : Int) {t : Fin (numC c)}
    (hUC : UC.isEmpty = false) (hsel : select_vertex c cur UC = some t) :
    binFillingGo c M (fuel + 1) UC terms cur credits =
      if credits + (courseAt c t).creditHours ≤ M then
        binFillingGo c M fuel (UC.erase t) terms (cur ++ [t])
          (credits + (courseAt c t).creditHours)
      else
        binFillingGo c M fuel (UC.erase t) (terms ++ [cur]) [t]
          ((courseAt c t).creditHours) := by
  rw [binFillingGo_succ, if_neg (by simp [hUC]), hsel]
  show (if credits + (courseAt c t).creditHours ≤ M then
      match binPropagate c (courseAt c t).id ((UC.erase t).length + 1)
          (UC.erase t) (cur ++ [t]) (credits + (courseAt c t).creditHours) 0 with
      | (a, b, d) => binFillingGo c M fuel a terms b d
    else
      match binPropagate c (courseAt c t).id ((UC.erase t).length + 1)
          (UC.erase t) [t] ((courseAt c t).creditHours) 0 with
      | (a, b, d) => binFillingGo c M fuel a (terms ++ [cur]) b d) = _
  rw [binPropagate_id hnsc, binPropagate_id hnsc]

lemma binFillingGo_succ_none (M : Int) (fuel : Nat) {UC : List (Fin (numC c))}
    (terms : List (List (Fin (numC c)))) {cur : List (Fin (numC c))}
    (credits : Int)
    (hUC : UC.isEmpty = false) (hsel : select_vertex c cur UC = none) :
    binFillingGo c M (fuel + 1) UC terms cur credits =
      binFillingGo c M fuel UC (if cur.isEmpty then terms else terms ++ [cur])
        [] 0 := by
  rw [binFillingGo_succ, if_neg (by simp [hUC]), hsel]

lemma binFilling_finish (hids : (c.courses.map Course.id).Nodup)
    {maxCpt : Int}
    (terms : List (List (Fin (numC c)))) (cur : List (Fin (numC c)))
    (hperm : (terms.flatten ++ cur).Perm (List.finRange (numC c)))
    (hI2 : ∀ t ∈ terms, maxCpt < termCredits c t → t.length = 1)
    (hI3 : termCredits c cur ≤ maxCpt ∨ cur.length = 1)
    (hI5 : (terms ++ [cur]).Pairwise (backOk c))
    (hI6 : ∀ t ∈ terms ++ [cur], samePreOk c t) :
    plan_is_valid c (if cur.isEmpty then terms else terms ++ [cur]) = true ∧
      ∀ t ∈ (if cur.isEmpty then terms else terms ++ [cur]),
        maxCpt < termCredits c t → t.length = 1 := by
  by_cases hc : cur.isEmpty = true
  · have hcur : cur = [] := List.isEmpty_iff.mp hc
    rw [if_pos hc]
    subst hcur
    have hflat : terms.flatten.Perm (List.finRange (numC c)) := by
      rw [← List.append_nil terms.flatten]
      exact hperm
    refine ⟨?_, hI2⟩
    rw [plan_is_valid, Bool.and_eq_true, Bool.and_eq_true, Bool.and_eq_true]
    refine ⟨⟨⟨?_, ?_⟩, ?_⟩, ?_⟩
    · exact planNoBackReq_iff.mpr
        (List.Pairwise.sublist (List.sublist_append_left terms [[]]) hI5)
    · exact planNoSamePre_iff.mpr
        (fun t ht => hI6 t (List.mem_append_left _ ht))
    · exact planComplete_of_perm hflat
    · exact planNoDup_of_perm hids hflat
  · rw [if_neg hc]
    have hflat : (terms ++ [cur]).flatten.Perm (List.finRange (numC c)) := by
      rw [List.flatten_append, List.flatten_cons, List.flatten_nil,
        List.append_nil]
      exact hperm
    constructor
    · rw [plan_is_valid, Bool.and_eq_true, Bool.and_eq_true, Bool.and_eq_true]
      refine ⟨⟨⟨?_, ?_⟩, ?_⟩, ?_⟩
      · exact planNoBackReq_iff.mpr hI5
      · exact planNoSamePre_iff.mpr hI6
      · exact planComplete_of_perm hflat
      · exact planNoDup_of_perm hids hflat
    · intro t ht hgt
      rcases List.mem_append.mp ht with h | h
      · exact hI2 t h hgt
      · rw [List.mem_singleton] at h
        subst h
        rcases hI3 with h3 | h3
        · exact absurd hgt (not_lt.mpr h3)
        · exact h3

lemma binFillingGo_valid
    (hids : (c.courses.map Course.id).Nodup)
    (hnsc : ∀ course ∈ c.courses, ∀ p ∈ course.requisites, p.2 ≠ Req.strictCo)
    {maxCpt : Int} (hMc : 0 ≤ maxCpt) :
    ∀ (fuel : Nat) (UC : List (Fin (numC c)))
      (terms : List (List (Fin (numC c)))) (cur : List (Fin (numC c)))
      (credits : Int) (out : List (List (Fin (numC c)))),
      (terms.flatten ++ (cur ++ UC)).Perm (List.finRange (numC c)) →
      credits = termCredits c cur →
      (∀ t ∈ terms, maxCpt < termCredits c t → t.length = 1) →
      (termCredits c cur ≤ maxCpt ∨ cur.length = 1) →
      (∀ p ∈ terms.flatten ++ cur, ∀ s ∈ UC,
        hasPathB (curricAdj c) s p = false) →
      (terms ++ [cur]).Pairwise (backOk c) →
      (∀ t ∈ terms ++ [cur], samePreOk c t) →
      binFillingGo c maxCpt fuel UC terms cur credits = some out →
      plan_is_valid c out = true ∧
        ∀ t ∈ out, maxCpt < termCredits c t → t.length = 1 := by
  intro fuel
  induction fuel with
  | zero =>
    intro UC terms cur credits out hperm hcr hI2 hI3 hI4 hI5 hI6 hrun
    rw [binFillingGo_zero] at hrun
    by_cases hUC : UC.isEmpty = true
    · rw [if_pos hUC] at hrun
      have hUCnil : UC = [] := List.isEmpty_iff.mp hUC
      subst hUCnil
      rw [List.append_nil] at hperm
      have hout := Option.some.inj hrun
      subst hout
      exact binFilling_finish hids terms cur hperm hI2 hI3 hI5 hI6
    · rw [if_neg hUC] at hrun
      exact absurd hrun (by simp)
  | succ fuel ih =>
    intro UC terms cur credits out hperm hcr hI2 hI3 hI4 hI5 hI6 hrun
    by_cases hUC : UC.isEmpty = true
    · rw [binFillingGo_succ, if_pos hUC] at hrun
      have hUCnil : UC = [] := List.isEmpty_iff.mp hUC
      subst hUCnil
      rw [List.append_nil] at hperm
      have hout := Option.some.inj hrun
      subst hout
      exact binFilling_finish hids terms cur hperm hI2 hI3 hI5 hI6
    · have hUCf : UC.isEmpty = false := by
        rcases Bool.eq_false_or_eq_true UC.isEmpty with h | h
        · exact absurd h hUC
        · exact h
      cases hsel : select_vertex c cur UC with
      | some t =>
        rw [binFillingGo_succ_some hnsc maxCpt fuel terms credits hUCf hsel]
          at hrun
        obtain ⟨ht, hinv1, hinv2⟩ := select_vertex_eq_some hsel
        have hndall : (terms.flatten ++ (cur ++ UC)).Nodup :=
          hperm.nodup_iff.mpr (List.nodup_finRange _)
        have hUCnd : UC.Nodup := (hndall.of_append_right).of_append_right
        have hUCp : UC.Perm (t :: UC.erase t) := List.perm_cons_erase ht
        have htnot : t ∉ UC.erase t := by
          have hnd2 := (hUCp.nodup_iff).mp hUCnd
          exact (List.nodup_cons.mp hnd2).1
        have hsub : ∀ s ∈ UC.erase t, s ∈ UC :=
          fun s hs => List.erase_subset _ _ hs
        have hnolook : ∀ p ∈ terms.flatten ++ cur,
            lookupReq (courseAt c p).requisites (courseAt c t).id = none := by
          intro p hp
          by_contra hne
          obtain ⟨r, hr⟩ := Option.ne_none_iff_exists'.mp hne
          have hpath := hasPathB_of_edge (edge_of_lookup hids hr)
          have hfalse := hI4 p hp t ht
          rw [hfalse] at hpath
          exact Bool.false_ne_true hpath
        have hpermE : (cur ++ (t :: UC.erase t)).Perm (cur ++ UC) :=
          List.Perm.append_left cur hUCp.symm
        by_cases hle : credits + (courseAt c t).creditHours ≤ maxCpt
        · rw [if_pos hle] at hrun
          refine ih (UC.erase t) terms (cur ++ [t]) _ out ?_ ?_ hI2 ?_ ?_ ?_ ?_
            hrun
          · have h1 : (cur ++ [t]) ++ UC.erase t = cur ++ (t :: UC.erase t) := by
              rw [List.append_assoc]
              rfl
            rw [h1]
            exact (List.Perm.append_left terms.flatten hpermE).trans hperm
          · rw [termCredits_append, termCredits_singleton, hcr]
          · left
            rw [termCredits_append, termCredits_singleton, ← hcr]
            exact hle
          · intro p hp s hs
            have hsUC := hsub s hs
            rcases List.mem_append.mp hp with hp1 | hp2
            · exact hI4 p (List.mem_append_left _ hp1) s hsUC
            · rcases List.mem_append.mp hp2 with hq | hq
              · exact hI4 p (List.mem_append_right _ hq) s hsUC
              · rw [List.mem_singleton] at hq
                subst hq
                rcases hinv1 s hsUC with he | hf
                · exact absurd (he ▸ hs) htnot
                · exact hf
          · rw [List.pairwise_append]
            obtain ⟨hpwT, _, hTcur⟩ := List.pairwise_append.mp hI5
            refine ⟨hpwT, by simp [backOk], ?_⟩
            intro a ha b hb
            rw [List.mem_singleton] at hb
            subst hb
            intro c1 hc1 c2 hc2
            rcases List.mem_append.mp hc1 with h1 | h1
            · exact hTcur a ha cur (List.mem_singleton.mpr rfl) c1 h1 c2 hc2
            · rw [List.mem_singleton] at h1
              subst h1
              exact hnolook c2
                (List.mem_append_left _ (List.mem_flatten.mpr ⟨a, ha, hc2⟩))
          · intro tl htl
            rcases List.mem_append.mp htl with h1 | h1
            · exact hI6 tl (List.mem_append_left _ h1)
            · rw [List.mem_singleton] at h1
              subst h1
              intro u hu r hr
              rcases List.mem_append.mp hu with hu1 | hu1
              · rcases List.mem_append.mp hr with hr1 | hr1
                · exact hI6 cur
                    (List.mem_append_right _ (List.mem_singleton.mpr rfl))
                    u hu1 r hr1
                · rw [List.mem_singleton] at hr1
                  subst hr1
                  right
                  rw [hnolook u (List.mem_append_right _ hu1)]
                  simp
              · rw [List.mem_singleton] at hu1
                subst hu1
                rcases List.mem_append.mp hr with hr1 | hr1
                · exact Or.inr (hinv2 r hr1)
                · rw [List.mem_singleton] at hr1
                  subst hr1
                  exact Or.inl rfl
        · rw [if_neg hle] at hrun
          refine ih (UC.erase t) (terms ++ [cur]) [t] _ out ?_ ?_ ?_
            (Or.inr rfl) ?_ ?_ ?_ hrun
          · rw [List.flatten_append, List.flatten_cons, List.flatten_nil,
              List.append_nil, List.append_assoc]
            have h1 : ([t] ++ UC.erase t) = t :: UC.erase t := rfl
            rw [h1]
            exact (List.Perm.append_left terms.flatten hpermE).trans hperm
          · rw [termCredits_singleton]
          · intro tl htl hgt
            rcases List.mem_append.mp htl with h1 | h1
            · exact hI2 tl h1 hgt
            · rw [List.mem_singleton] at h1
              subst h1
              rcases hI3 with h3 | h3
              · exact absurd hgt (not_lt.mpr h3)
              · exact h3
          · intro p hp s hs
            have hsUC := hsub s hs
            rw [List.flatten_append, List.flatten_cons, List.flatten_nil,
              List.append_nil] at hp
            rcases List.mem_append.mp hp with hp1 | hp2
            · rcases List.mem_append.mp hp1 with hq | hq
              · exact hI4 p (List.mem_append_left _ hq) s hsUC
              · exact hI4 p (List.mem_append_right _ hq) s hsUC
            · rw [List.mem_singleton] at hp2
              subst hp2
              rcases hinv1 s hsUC with he | hf
              · exact absurd (he ▸ hs) htnot
              · exact hf
          · rw [List.pairwise_append]
            refine ⟨hI5, by simp [backOk], ?_⟩
            intro a ha b hb
            rw [List.mem_singleton] at hb
            subst hb
            intro c1 hc1 c2 hc2
            rw [List.mem_singleton] at hc1
            subst hc1
            have hc2p : c2 ∈ terms.flatten ++ cur := by
              rcases List.mem_append.mp ha with h1 | h1
              · exact List.mem_append_left _ (List.mem_flatten.mpr ⟨a, h1, hc2⟩)
              · rw [List.mem_singleton] at h1
                subst h1
                exact List.mem_append_right _ hc2
            exact hnolook c2 hc2p
          · intro tl htl
            rcases List.mem_append.mp htl with h1 | h1
            · rcases List.mem_append.mp h1 with h2 | h2
              · exact hI6 tl (List.mem_append_left _ h2)
              · exact hI6 tl (List.mem_append_right _ h2)
            · rw [List.mem_singleton] at h1
              subst h1
              intro u hu r hr
              rw [List.mem_singleton] at hu hr
              subst hu
              subst hr
              exact Or.inl rfl
      | none =>
        rw [binFillingGo_succ_none maxCpt fuel terms credits hUCf hsel] at hrun
        by_cases hcur : cur.isEmpty = true
        · have hnil : cur = [] := List.isEmpty_iff.mp hcur
          subst hnil
          rw [if_pos hcur] at hrun
          exact ih UC terms [] 0 out hperm rfl hI2
            (Or.inl (by rw [termCredits_nil]; exact hMc)) hI4 hI5 hI6 hrun
        · rw [if_neg hcur] at hrun
          refine ih UC (terms ++ [cur]) [] 0 out ?_ rfl ?_
            (Or.inl (by rw [termCredits_nil]; exact hMc)) ?_ ?_ ?_ hrun
          · rw [List.flatten_append, List.flatten_cons, List.flatten_nil,
              List.append_nil, List.nil_append, List.append_assoc]
            exact hperm
          · intro tl htl hgt
            rcases List.mem_append.mp htl with h1 | h1
            · exact hI2 tl h1 hgt
            · rw [List.mem_singleton] at h1
              subst h1
              rcases hI3 with h3 | h3
              · exact absurd hgt (not_lt.mpr h3)
              · exact h3
          · intro p hp s hs
            rw [List.append_nil, List.flatten_append, List.flatten_cons,
              List.flatten_nil, List.append_nil] at hp
            exact hI4 p hp s hs
          · rw [List.pairwise_append]
            refine ⟨hI5, by simp [backOk], ?_⟩
            intro a _ b hb
            rw [List.mem_singleton] at hb
            subst hb
            intro c1 hc1
            exact absurd hc1 (List.not_mem_nil c1)
          · intro tl htl
            rcases List.mem_append.mp htl with h1 | h1
            · rcases List.mem_append.mp h1 with h2 | h2
              · exact hI6 tl (List.mem_append_left _ h2)
              · exact hI6 tl (List.mem_append_right _ h2)
            · rw [List.mem_singleton] at h1
              subst h1
              intro u hu
              exact absurd hu (List.not_mem_nil u)

end ClaimC2C6

section ClaimC2Main

/-- C2 (amended): for every curriculum with duplicate-free course ids and NO
strict co-requisites, and every max credit bound `max_cpt ≥ 0`, whenever
`bin_filling` returns a term list the resulting plan satisfies
`DegreePlan.is_valid`, and every term whose total credit hours exceeds
`max_cpt` is a single course (whose own credit hours then exceed `max_cpt`).
The claim's lower bound `min_cpt` is never consulted by the code, and with
strict co-requisites present the returned plan can violate `is_valid` (see the
counterexample), so both of those parts of the original claim are dropped. -/
theorem claim_C2_amended (c : Curriculum)
    (hids : (c.courses.map Course.id).Nodup)
    (hnsc : ∀ course ∈ c.courses, ∀ p ∈ course.requisites, p.2 ≠ Req.strictCo)
    (addl : List Course) (minTerms maxTerms : Nat) (minCpt maxCpt : Int)
    (hMc : 0 ≤ maxCpt) (fuel : Nat) (out : List (List (Fin (numC c))))
    (hrun : bin_filling c addl minTerms maxTerms minCpt maxCpt fuel = some out) :
    plan_is_valid c out = true ∧
      ∀ t ∈ out, maxCpt < termCredits c t → t.length = 1 := by
  rw [bin_filling] at hrun
  refine binFillingGo_valid hids hnsc hMc fuel (initialUC c) [] [] 0 out ?_ rfl
    (by simp) (Or.inl (by rw [termCredits_nil]; exact hMc)) (by simp) ?_ ?_ hrun
  · simp only [List.flatten_nil, List.nil_append]
    exact List.perm_insertionSort _ _
  · simp [backOk]
  · intro t ht
    simp only [List.nil_append, List.mem_singleton] at ht
    subst ht
    intro u hu
    exact absurd hu (List.not_mem_nil u)

/-- C2 counterexample: the acyclic three-course curriculum where course 3 has
course 1 as a plain prerequisite and course 2 as a strict co-requisite.
`bin_filling` places all three courses in one term (strict co-requisite
propagation bypasses the prerequisite check), so the returned plan fails
`DegreePlan.is_valid`, refuting the claim that bin-filling output on acyclic
curricula is always valid. -/
theorem claim_C2_cex :
    hasCycleB (curricAdj curriculumC2x) = false ∧
    Acyclic (curricAdj curriculumC2x) ∧
    bin_filling curriculumC2x [] 2 10 3 19 20 =
      some ([[0, 1, 2]] : List (List (Fin 3))) ∧
    plan_is_valid curriculumC2x ([[0, 1, 2]] : List (List (Fin 3))) = false :=
  ⟨by decide, hasCycleB_eq_false_iff.mp (by decide), by decide, by decide⟩

/-- Witness: the amended C2 theorem applied to the two-course chain
curriculum with `max_cpt = 19` and fuel 20. -/
theorem claim_C2_witness :
    ((curriculumCW.courses.map Course.id).Nodup ∧
      (∀ course ∈ curriculumCW.courses, ∀ p ∈ course.requisites,
        p.2 ≠ Req.strictCo) ∧
      (0 : Int) ≤ 19 ∧
      bin_filling curriculumCW [] 2 10 3 19 20 =
        some ([[0], [1]] : List (List (Fin 2)))) ∧
    (plan_is_valid curriculumCW
        ([[0], [1]] : List (List (Fin 2))) = true ∧
      ∀ t ∈ ([[0], [1]] : List (List (Fin 2))),
        (19 : Int) < termCredits curriculumCW t → t.length = 1) :=
  ⟨⟨by decide, by decide, by decide, by decide⟩,
    claim_C2_amended curriculumCW (by decide) (by decide) [] 2 10 3 19
      (by decide) 20 ([[0], [1]] : List (List (Fin 2)))
      (by decide)⟩

end ClaimC2Main

section ClaimC6Infra

variable {c : Curriculum}

lemma exists_rel_minimal {α : Type} {R : α → α → Prop}
    (htrans : ∀ a b d, R a b → R b d → R a d) :
    ∀ (l : List α), l ≠ [] → (∀ a ∈ l, ¬R a a) →
      ∃ t ∈ l, ∀ s ∈ l, ¬R s t := by
  intro l
  induction l with
  | nil => intro h; exact absurd rfl h
  | cons x rest ih =>
    intro _ hirr
    rcases eq_or_ne rest [] with hre | hre
    · subst hre
      refine ⟨x, by simp, ?_⟩
      intro s hs
      rw [List.mem_singleton] at hs
      subst hs
      exact hirr s (by simp)
    · obtain ⟨t, ht, hmin⟩ :=
        ih hre (fun a ha => hirr a (List.mem_cons_of_mem x ha))
      by_cases hxt : R x t
      · refine ⟨x, by simp, ?_⟩
        intro s hs
        rcases List.mem_cons.mp hs with rfl | hs2
        · exact hirr s (by simp)
        · intro hRsx
          exact hmin s hs2 (htrans s x t hRsx hxt)
      · refine ⟨t, List.mem_cons_of_mem x ht, ?_⟩
        intro s hs
        rcases List.mem_cons.mp hs with rfl | hs2
        · exact hxt
        · exact hmin s hs2

lemma select_vertex_none_empty (hacyc : Acyclic (curricAdj c))
    {UC : List (Fin (numC c))} (hne : UC ≠ [])
    (h : select_vertex c [] UC = none) : False := by
  have htrans : ∀ a b d : Fin (numC c),
      (a ≠ b ∧ Reaches (curricAdj c) a b) →
      (b ≠ d ∧ Reaches (curricAdj c) b d) →
      (a ≠ d ∧ Reaches (curricAdj c) a d) := by
    rintro a b d ⟨hab, hrab⟩ ⟨hbd, hrbd⟩
    refine ⟨?_, hrab.trans hrbd⟩
    intro he
    subst he
    rcases Relation.reflTransGen_iff_eq_or_transGen.mp hrab with he2 | htg
    · exact hab he2.symm
    · rcases Relation.reflTransGen_iff_eq_or_transGen.mp hrbd with he3 | htg2
      · exact hbd he3.symm
      · exact hacyc a (htg.trans htg2)
  have hirr : ∀ a ∈ UC, ¬(a ≠ a ∧ Reaches (curricAdj c) a a) :=
    fun a _ hc => hc.1 rfl
  obtain ⟨t, ht, hmin⟩ := exists_rel_minimal htrans UC hne hirr
  rw [select_vertex, List.find?_eq_none] at h
  apply h t ht
  rw [Bool.and_eq_true]
  constructor
  · rw [List.all_eq_true]
    intro s hs
    by_cases hst : s = t
    · subst hst
      simp
    · have hnr : ¬Reaches (curricAdj c) s t :=
        fun hr => hmin s hs ⟨hst, hr⟩
      have hf : hasPathB (curricAdj c) s t = false := by
        cases hp : hasPathB (curricAdj c) s t
        · rfl
        · exact absurd (hasPathB_iff.mp hp) hnr
      rw [Bool.or_eq_true]
      right
      rw [hf]
      rfl
  · rfl

lemma binPropagate_length (cid : Nat) :
    ∀ (fuel : Nat) (uc term : List (Fin (numC c))) (credits : Int) (i : Nat),
      (binPropagate c cid fuel uc term credits i).1.length ≤ uc.length := by
  intro fuel
  induction fuel with
  | zero => intro uc term credits i; exact le_rfl
  | succ fuel ih =>
    intro uc term credits i
    rw [binPropagate]
    by_cases h : i < uc.length
    · rw [dif_pos h]
      cases hany : ((courseAt c (uc.get ⟨i, h⟩)).requisites.any
          (fun p => p.1 == cid && p.2 == Req.strictCo)) with
      | true =>
        simp only [hany, if_true]
        exact le_trans (ih _ _ _ _) ((List.eraseIdx_sublist uc i).length_le)
      | false =>
        simp only [hany]
        rw [if_neg (by simp)]
        exact ih _ _ _ _
    · rw [dif_neg h]

lemma binFillingGo_succ_some_raw (M : Int) (fuel : Nat)
    {UC : List (Fin (numC c))} (terms : List (List (Fin (numC c))))
    {cur : List (Fin (numC c))} (credits : Int) {t : Fin (numC c)}
    (hUC : UC.isEmpty = false) (hsel : select_vertex c cur UC = some t) :
    binFillingGo c M (fuel + 1) UC terms cur credits =
      if credits + (courseAt c t).creditHours ≤ M then
        binFillingGo c M fuel
          (binPropagate c (courseAt c t).id ((UC.erase t).length + 1)
            (UC.erase t) (cur ++ [t]) (credits + (courseAt c t).creditHours) 0).1
          terms
          (binPropagate c (courseAt c t).id ((UC.erase t).length + 1)
            (UC.erase t) (cur ++ [t]) (credits + (courseAt c t).creditHours) 0).2.1
          (binPropagate c (courseAt c t).id ((UC.erase t).length + 1)
            (UC.erase t) (cur ++ [t]) (credits + (courseAt c t).creditHours) 0).2.2
      else
        binFillingGo c M fuel
          (binPropagate c (courseAt c t).id ((UC.erase t).length + 1)
            (UC.erase t) [t] ((courseAt c t).creditHours) 0).1
          (terms ++ [cur])
          (binPropagate c (courseAt c t).id ((UC.erase t).length + 1)
            (UC.erase t) [t] ((courseAt c t).creditHours) 0).2.1
          (binPropagate c (courseAt c t).id ((UC.erase t).length + 1)
            (UC.erase t) [t] ((courseAt c t).creditHours) 0).2.2 := by
  rw [binFillingGo_succ, if_neg (by simp [hUC]), hsel]

lemma binFillingGo_total (hacyc : Acyclic (curricAdj c)) (M : Int) :
    ∀ (k : Nat) (UC : List (Fin (numC c)))
      (terms : List (List (Fin (numC c)))) (cur : List (Fin (numC c)))
      (credits : Int) (fuel : Nat),
      UC.length ≤ k → 2 * k + 1 ≤ fuel →
      ∃ out, binFillingGo c M fuel UC terms cur credits = some out := by
  intro k
  induction k with
  | zero =>
    intro UC terms cur credits fuel hlen _
    have hUC : UC = [] := List.length_eq_zero.mp (Nat.le_zero.mp hlen)
    subst hUC
    cases fuel with
    | zero =>
      refine ⟨if cur.isEmpty = true then terms else terms ++ [cur], ?_⟩
      rw [binFillingGo_zero]
      rfl
    | succ f =>
      refine ⟨if cur.isEmpty = true then terms else terms ++ [cur], ?_⟩
      rw [binFillingGo_succ]
      rfl
  | succ k ihk =>
    intro UC terms cur credits fuel hlen hfuel
    by_cases hUCe : UC.isEmpty = true
    · have hUCnil : UC = [] := List.isEmpty_iff.mp hUCe
      subst hUCnil
      cases fuel with
      | zero =>
        refine ⟨if cur.isEmpty = true then terms else terms ++ [cur], ?_⟩
        rw [binFillingGo_zero]
        rfl
      | succ f =>
        refine ⟨if cur.isEmpty = true then terms else terms ++ [cur], ?_⟩
        rw [binFillingGo_succ]
        rfl
    · have hUCf : UC.isEmpty = false := by
        rcases Bool.eq_false_or_eq_true UC.isEmpty with h | h
        · exact absurd h hUCe
        · exact h
      have hUCne : UC ≠ [] := by
        intro h
        rw [h] at hUCf
        exact absurd hUCf (by simp)
      have hpos : 0 < UC.length := List.length_pos.mpr hUCne
      obtain ⟨f, rfl⟩ : ∃ f, fuel = f + 1 := ⟨fuel - 1, by omega⟩
      cases hsel : select_vertex c cur UC with
      | some t =>
        rw [binFillingGo_succ_some_raw M f terms credits hUCf hsel]
        have ht : t ∈ UC := (select_vertex_eq_some hsel).1
        have herase : (UC.erase t).length = UC.length - 1 :=
          List.length_erase_of_mem ht
        by_cases hle : credits + (courseAt c t).creditHours ≤ M
        · rw [if_pos hle]
          refine ihk _ terms _ _ f ?_ (by omega)
          refine le_trans (binPropagate_length _ _ _ _ _ _) ?_
          omega
        · rw [if_neg hle]
          refine ihk _ (terms ++ [cur]) _ _ f ?_ (by omega)
          refine le_trans (binPropagate_length _ _ _ _ _ _) ?_
          omega
      | none =>
        rw [binFillingGo_succ_none M f terms credits hUCf hsel]
        obtain ⟨f2, rfl⟩ : ∃ f2, f = f2 + 1 := ⟨f - 1, by omega⟩
        cases hsel2 : select_vertex c ([] : List (Fin (numC c))) UC with
        | none => exact absurd (select_vertex_none_empty hacyc hUCne hsel2) id
        | some t =>
          rw [binFillingGo_succ_some_raw M f2 _ 0 hUCf hsel2]
          have ht : t ∈ UC := (select_vertex_eq_some hsel2).1
          have herase : (UC.erase t).length = UC.length - 1 :=
            List.length_erase_of_mem ht
          by_cases hle : (0 : Int) + (courseAt c t).creditHours ≤ M
          · rw [if_pos hle]
            refine ihk _ _ _ _ f2 ?_ (by omega)
            refine le_trans (binPropagate_length _ _ _ _ _ _) ?_
            omega
          · rw [if_neg hle]
            refine ihk _ _ _ _ f2 ?_ (by omega)
            refine le_trans (binPropagate_length _ _ _ _ _ _) ?_
            omega

end ClaimC6Infra

section ClaimC6Main

/-- C6 (amended): `bin_filling` has no failure value at all — on every acyclic
curriculum its loop terminates (any iteration bound of at least
`2*n + 1` suffices) and it returns the constructed term list, even when no
assignment satisfying the credit bounds exists (see the counterexample);
`create_degree_plan` returns `None` exactly when the pluggable strategy
reports failure — which `bin_filling` itself never does — and otherwise wraps
the produced terms in a `DegreePlan`. -/
theorem claim_C6_amended (c : Curriculum) (hacyc : Acyclic (curricAdj c))
    (addl : List Course) (minTerms maxTerms : Nat) (minCpt maxCpt : Int) :
    (∀ fuel, 2 * numC c + 1 ≤ fuel →
      ∃ out, bin_filling c addl minTerms maxTerms minCpt maxCpt fuel =
        some out) ∧
    (∀ (createTerms : (cc : Curriculum) → Nat → Nat → Int → Int →
        Option (List (List (Fin (numC cc))))) (nm : List Char),
      (create_degree_plan createTerms c nm minTerms maxTerms minCpt maxCpt =
          none ↔
        createTerms c minTerms maxTerms minCpt maxCpt = none) ∧
      (∀ ts, createTerms c minTerms maxTerms minCpt maxCpt = some ts →
        create_degree_plan createTerms c nm minTerms maxTerms minCpt maxCpt =
          some ⟨nm, c, ts⟩)) := by
  constructor
  · intro fuel hfuel
    rw [bin_filling]
    refine binFillingGo_total hacyc maxCpt (numC c) (initialUC c) [] [] 0 fuel
      ?_ hfuel
    rw [initialUC, List.length_insertionSort]
    rw [List.length_finRange]
  · intro createTerms nm
    constructor
    · constructor
      · intro hnone
        cases hct : createTerms c minTerms maxTerms minCpt maxCpt with
        | none => rfl
        | some ts =>
          rw [create_degree_plan, hct] at hnone
          exact absurd hnone (by simp)
      · intro hnone
        rw [create_degree_plan, hnone]
    · intro ts hts
      rw [create_degree_plan, hts]

/-- C6 counterexample: on the one-course curriculum whose only course carries
5 credit hours, with `max_cpt = 3` there is NO term list that both passes
`DegreePlan.is_valid` and keeps every term within the credit bound — yet
`bin_filling` does not report failure: it returns the term list `[[], [Big]]`
(with a leading empty term), so no failure indicator is ever produced when no
valid assignment satisfying the bounds exists. -/
theorem claim_C6_cex :
    bin_filling curriculumC6x [] 2 10 3 3 10 =
      some ([[], [0]] : List (List (Fin 1))) ∧
    (∀ terms : List (List (Fin (numC curriculumC6x))),
      plan_is_valid curriculumC6x terms = true →
      ∃ t ∈ terms, (3 : Int) < termCredits curriculumC6x t) := by
  constructor
  · decide
  · intro terms hval
    rw [plan_is_valid, Bool.and_eq_true, Bool.and_eq_true, Bool.and_eq_true]
      at hval
    have hcomp := hval.1.2
    rw [planComplete, List.all_eq_true] at hcomp
    have hbig := hcomp (curriculumC6x.courses.get ⟨0, by decide⟩)
      (List.get_mem _ _ _)
    rw [List.any_eq_true] at hbig
    obtain ⟨t, ht, hany⟩ := hbig
    rw [List.any_eq_true] at hany
    obtain ⟨i, hi, _⟩ := hany
    refine ⟨t, ht, ?_⟩
    have hmap : t.map (fun j => (courseAt curriculumC6x j).creditHours) =
        List.replicate t.length 5 := by
      rw [List.eq_replicate]
      refine ⟨by rw [List.length_map], ?_⟩
      intro b hb
      rw [List.mem_map] at hb
      obtain ⟨j, _, hj⟩ := hb
      have hlt : j.val < 1 := j.isLt
      have hj0 : j = (⟨0, by decide⟩ : Fin (numC curriculumC6x)) :=
        Fin.ext (show j.val = 0 by omega)
      rw [← hj, hj0]
      rfl
    have hlen : 1 ≤ t.length := by
      have hne : t ≠ [] := by
        intro h
        rw [h] at hi
        exact absurd hi (List.not_mem_nil i)
      have hp := List.length_pos.mpr hne
      omega
    rw [termCredits, hmap, List.sum_replicate, nsmul_eq_mul]
    have : (1 : Int) ≤ (t.length : Int) := by exact_mod_cast hlen
    nlinarith

/-- Witness: the amended C6 theorem applied to the acyclic two-course chain
curriculum, instantiating the termination bound and the
`create_degree_plan` characterization. -/
theorem claim_C6_witness :
    (∀ fuel, 2 * numC curriculumCW + 1 ≤ fuel →
      ∃ out, bin_filling curriculumCW [] 1 10 3 19 fuel = some out) ∧
    (∀ (createTerms : (cc : Curriculum) → Nat → Nat → Int → Int →
        Option (List (List (Fin (numC cc))))) (nm : List Char),
      (create_degree_plan createTerms curriculumCW nm 1 10 3 19 = none ↔
        createTerms curriculumCW 1 10 3 19 = none) ∧
      (∀ ts, createTerms curriculumCW 1 10 3 19 = some ts →
        create_degree_plan createTerms curriculumCW nm 1 10 3 19 =
          some ⟨nm, curriculumCW, ts⟩)) :=
  claim_C6_amended curriculumCW (hasCycleB_eq_false_iff.mp (by decide))
    [] 1 10 3 19

end ClaimC6Main

end CurrAn
